import Mathlib

/-!
# fibjs scheduling core: coroutine pool, background pool, preemption watchdog

A shallow embedding of `fibjs/src/coroutine/Fiber.cpp` and
`fibjs/src/base/acPool.cpp`, and of `hexEncode` and `hexDecode` from
`fibjs/src/encoding/encoding.cpp`.

Coroutines (exlib fibers) are cooperative: a coroutine runs without
interruption from one suspension point to the next.  The suspension points of
`FiberBase::fiber_proc` are the entry of the procedure (a created coroutine has
not run yet), the blocking `g_jobs.get()`, the re-acquisition of the engine
lock when the `v8::Unlocker` around `get()` is destroyed, and the body of
`js_invoke` (script code may suspend).  Each coroutine therefore carries a
program point (`FiberPc`) and `fiberStep` runs one coroutine from its current
suspension point to the next one.  The idle hook, submissions and changes of
the global `g_spareFibers` may happen between any two such blocks.

Background workers (`_acThread`) are OS threads; their atomic operations
(`s_idleThreads.inc()`, `s_idleThreads.dec()`, queue operations, thread
creation) interleave freely, so a worker's program point advances by one such
operation per step.

Besides the state, each coroutine has an event trace (`FiberEv`, `traceOf`):
what it does to the engine lock, the job queue, the counters and its task,
in the order of `fiber_proc`.

The counters `s_fibers`, `s_idleFibers` are `int32_t` in the source and are
modelled as `Int`; `sched_counters_in_range` shows that they stay within
`0 .. 10000` in every reachable state, so no 32-bit wrap-around can occur.
-/

namespace fibjs

/-! ## Coroutine scheduler (`Fiber.cpp`) -/

/-- The constant `MAX_FIBER`. -/
def MAX_FIBER : Int := 10000

/-- The constant `MAX_IDLE`. -/
def MAX_IDLE : Int := 256

/-- The result code for success (`return 0`). -/
def CALL_OK : Int := 0

/-- Execution context of one coroutine task (`JSFiber` / `FiberBase`).  Script
values are integers; `m_func args = none` stands for a call that yields an
empty handle (the callable threw).  `props` are the own properties of the
engine-side wrapper object, `calls` counts the calls of the callable. -/
structure JSFiber where
  m_func : List Int → Option Int
  m_argv : List Int
  m_result : Option Int
  m_quit : Bool
  m_caller : Option Nat
  props : List (Nat × Int)
  calls : Nat

/-- A task as its creator hands it over: nothing run yet, no caller. -/
def JSFiber.fresh (f : List Int → Option Int) (argv : List Int) : JSFiber :=
  { m_func := f, m_argv := argv, m_result := none, m_quit := false,
    m_caller := none, props := [], calls := 0 }

/-- Program point of a coroutine running `FiberBase::fiber_proc`. -/
inductive FiberPc where
  /-- After `exlib::Fiber::Create`, before `fiber_proc` has run. -/
  | created
  /-- Inside `ae->js_invoke()`. -/
  | invoking (ae : Nat)
  /-- Suspended in the blocking `g_jobs.get()`. -/
  | parked
  /-- The blocking `g_jobs.get()` has delivered `ae`; the coroutine has not yet
  executed the following `s_idleFibers --`. -/
  | woken (ae : Nat)
  /-- After `s_fibers --; return NULL`. -/
  | exited
deriving DecidableEq, Repr

/-- Modelled from the spec: the class `exlib::Queue` is not among the sources.
It is the blocking job queue of section 4.1, a FIFO sequence of tasks: `put`
appends at the tail and never fails, `tryget` removes and returns the head or
reports "empty", `get` removes and returns the head and suspends its caller
while there is none, `empty` tells whether there is none.  Tasks are named by
their index among the task objects. -/
abbrev JobQueue : Type := List Nat

/-- The file-level state of `Fiber.cpp` together with the coroutines and the
task objects.  `g_jobs` holds indices into `heap`. -/
structure Sched where
  g_jobs : JobQueue
  s_fibers : Int
  s_idleFibers : Int
  g_spareFibers : Int
  fibers : List FiberPc
  heap : List JSFiber

/-- The state left by `init_fiber`: spare ceiling `MAX_IDLE`, both counters 0,
empty queue. -/
def init_fiber : Sched :=
  { g_jobs := [], s_fibers := 0, s_idleFibers := 0, g_spareFibers := MAX_IDLE,
    fibers := [], heap := [] }

/-- The idle hook `onIdle`.  The chained previous hook `s_oldIdle` cannot reach
the file-static state and is left out. -/
def onIdle (s : Sched) : Sched :=
  if !s.g_jobs.isEmpty && s.s_idleFibers == 0 && decide (s.s_fibers < MAX_FIBER) then
    { s with
      s_fibers := s.s_fibers + 1
      s_idleFibers := s.s_idleFibers + 1
      fibers := s.fibers ++ [FiberPc.created] }
  else s

/-- Property write `o->Set(k, v)` on a wrapper object. -/
def objSet : List (Nat × Int) → Nat → Int → List (Nat × Int)
  | [], k, v => [(k, v)]
  | (k', v') :: rest, k, v =>
    if k' = k then (k, v) :: rest else (k', v') :: objSet rest k v

/-- Property read `o->Get(k)`. -/
def objGet : List (Nat × Int) → Nat → Option Int
  | [], _ => none
  | (k', v') :: rest, k => if k' = k then some v' else objGet rest k

/-- The loop `for (i = 0; i < len; i++) o->Set(ks[i], co->Get(ks[i]))`. -/
def copyProps (co : List (Nat × Int)) : List Nat → List (Nat × Int) → List (Nat × Int)
  | [], o => o
  | k :: ks, o =>
    match objGet co k with
    | some v => copyProps co ks (objSet o k v)
    | none => copyProps co ks o

/-- The method `FiberBase::set_caller`; `caller` is a heap index or null. -/
def set_caller (heap : List JSFiber) (t : JSFiber) (caller : Option Nat) : JSFiber :=
  match caller with
  | none => { t with m_caller := none }
  | some c =>
    match heap[c]? with
    | some co => { t with m_caller := some c,
                          props := copyProps co.props (co.props.map Prod.fst) t.props }
    | none => { t with m_caller := some c }

/-- The method `AsyncEvent::sync`: `g_jobs.put(this)`. -/
def sync (s : Sched) (t : JSFiber) : Sched :=
  { s with heap := s.heap ++ [t], g_jobs := s.g_jobs ++ [s.heap.length] }

/-- The method `FiberBase::start`: `set_caller(JSFiber::current());
g_jobs.put(this)`.  The current coroutine's task is the parameter `cur`. -/
def start (s : Sched) (cur : Option Nat) (t : JSFiber) : Sched :=
  { s with heap := s.heap ++ [set_caller s.heap t cur],
           g_jobs := s.g_jobs ++ [s.heap.length] }

/-- The method `JSFiber::js_invoke` on one task object: call the callable with
the captured arguments, store a non-empty return value in `m_result`, and set
the completion signal `m_quit` when the `scope` is left. -/
def js_invoke (t : JSFiber) : JSFiber :=
  let retVal := t.m_func t.m_argv
  { t with
    calls := t.calls + 1
    m_result := match retVal with
      | some v => some v
      | none => t.m_result
    m_quit := true }

/-- The method `FiberBase::join`: `none` while the caller is suspended in
`m_quit.wait()`, otherwise the returned `result_t`, which is always 0. -/
def join (t : JSFiber) : Option Int :=
  if !t.m_quit then none else some CALL_OK

/-- Apply `js_invoke` to the task object at index `ae`. -/
def invokeAt (heap : List JSFiber) (ae : Nat) : List JSFiber :=
  match heap[ae]? with
  | some t => heap.set ae (js_invoke t)
  | none => heap

/-- One pass of coroutine `i` from the head of `while (1)` in `fiber_proc` to
its next suspension point.  `tryget` delivers the queue head if there is one;
on an empty queue the coroutine counts itself idle and either leaves the loop
(`s_idleFibers --; break; s_fibers --`) or suspends in `g_jobs.get()`. -/
def fiber_loop (s : Sched) (i : Nat) : Sched :=
  match s.g_jobs with
  | ae :: rest => { s with g_jobs := rest, fibers := s.fibers.set i (FiberPc.invoking ae) }
  | [] =>
    let idle := s.s_idleFibers + 1
    if idle > s.g_spareFibers then
      { s with s_idleFibers := idle - 1
               s_fibers := s.s_fibers - 1
               fibers := s.fibers.set i FiberPc.exited }
    else
      { s with s_idleFibers := idle, fibers := s.fibers.set i FiberPc.parked }

/-- Entry of `fiber_proc`: `s_idleFibers --` and the first pass of the loop. -/
def fiber_entry (s : Sched) (i : Nat) : Sched :=
  fiber_loop { s with s_idleFibers := s.s_idleFibers - 1 } i

/-- The blocking `g_jobs.get()` of a parked coroutine: it stays suspended while
the queue is empty and takes the head once there is one. -/
def fiber_get (s : Sched) (i : Nat) : Sched :=
  match s.g_jobs with
  | ae :: rest => { s with g_jobs := rest, fibers := s.fibers.set i (FiberPc.woken ae) }
  | [] => s

/-- After `get()` has returned `ae`: `s_idleFibers --`, then `ae->js_invoke()`
is entered. -/
def fiber_resume (s : Sched) (i : Nat) (ae : Nat) : Sched :=
  { s with s_idleFibers := s.s_idleFibers - 1
           fibers := s.fibers.set i (FiberPc.invoking ae) }

/-- Return of `ae->js_invoke()` followed by the next pass of the loop. -/
def fiber_finish (s : Sched) (i : Nat) (ae : Nat) : Sched :=
  fiber_loop { s with heap := invokeAt s.heap ae } i

/-- Run coroutine `i` from its current suspension point to the next one. -/
def fiberStep (s : Sched) (i : Nat) : Sched :=
  match s.fibers[i]? with
  | some FiberPc.created => fiber_entry s i
  | some (FiberPc.invoking ae) => fiber_finish s i ae
  | some FiberPc.parked => fiber_get s i
  | some (FiberPc.woken ae) => fiber_resume s i ae
  | some FiberPc.exited => s
  | none => s

/-- Modelled from the spec: the setter of the spare ceiling is not among the
sources; `g_spareFibers` is a global of `Fiber.cpp` that the spec calls
runtime-adjustable upward and downward.  The global is assigned `v`. -/
def set_spareFibers (s : Sched) (v : Int) : Sched :=
  { s with g_spareFibers := v }

/-- What can happen to the scheduler between two suspension points. -/
inductive Event where
  /-- A task submitted through `AsyncEvent::sync`. -/
  | sync (t : JSFiber)
  /-- A task submitted through `FiberBase::start` from the context `cur`. -/
  | start (cur : Option Nat) (t : JSFiber)
  /-- One call of the idle hook. -/
  | idle
  /-- Coroutine `i` runs to its next suspension point. -/
  | fiber (i : Nat)
  /-- The global `g_spareFibers` is assigned `v`. -/
  | setSpare (v : Int)

/-- Effect of one event. -/
def step (s : Sched) : Event → Sched
  | Event.sync t => sync s t
  | Event.start cur t => start s cur t
  | Event.idle => onIdle s
  | Event.fiber i => fiberStep s i
  | Event.setSpare v => set_spareFibers s v

/-- Effect of a sequence of events. -/
def run (s : Sched) (es : List Event) : Sched := es.foldl step s

/-- Whether the coroutine has not left `fiber_proc`. -/
def FiberPc.alive : FiberPc → Bool
  | FiberPc.exited => false
  | _ => true

/-- Whether the coroutine is counted in `s_idleFibers`. -/
def FiberPc.idle : FiberPc → Bool
  | FiberPc.created => true
  | FiberPc.parked => true
  | FiberPc.woken _ => true
  | _ => false

/-- Whether the coroutine is in or just past the blocking pop. -/
def FiberPc.inGet : FiberPc → Bool
  | FiberPc.parked => true
  | FiberPc.woken _ => true
  | _ => false

/-- Whether the coroutine owns a dequeued task. -/
def FiberPc.holds : FiberPc → Bool
  | FiberPc.invoking _ => true
  | FiberPc.woken _ => true
  | _ => false

/-- Steady state: every alive coroutine is running a task or parked in the
blocking pop. -/
def FiberPc.steady : FiberPc → Bool
  | FiberPc.invoking _ => true
  | FiberPc.parked => true
  | FiberPc.exited => true
  | _ => false

/-- Every alive coroutine is parked in the blocking pop. -/
def FiberPc.parkedOrGone : FiberPc → Bool
  | FiberPc.parked => true
  | FiberPc.exited => true
  | _ => false

/-- Events other than submissions and ceiling changes. -/
def Event.isSchedStep : Event → Bool
  | Event.idle => true
  | Event.fiber _ => true
  | _ => false

/-- Whether every assignment to `g_spareFibers` in the events is at most `m`. -/
def Event.spareLe (m : Int) : Event → Bool
  | Event.setSpare v => decide (v ≤ m)
  | _ => true

/-! ### Invariants of the coroutine scheduler -/

/-- Contribution of one entry to a count. -/
def b2n (b : Bool) : Nat := if b then 1 else 0

/-- The counters agree with the coroutines' program points and respect the
hard ceiling. -/
structure CountInv (s : Sched) : Prop where
  fibers_eq : s.s_fibers = (s.fibers.countP FiberPc.alive : Nat)
  idle_eq : s.s_idleFibers = (s.fibers.countP FiberPc.idle : Nat)
  fibers_le : s.s_fibers ≤ MAX_FIBER

/-- The coroutines in or just past the blocking pop number at most `m`, an
upper bound of the ceiling. -/
structure SpareInv (m : Int) (s : Sched) : Prop where
  inGet_le : (s.fibers.countP FiberPc.inGet : Nat) ≤ m
  spare_le : s.g_spareFibers ≤ m

/-- Every dequeued, unfinished task is owned by one coroutine, and there are
never more alive coroutines than submitted tasks. -/
structure TaskInv (s : Sched) : Prop where
  holds_le : s.fibers.countP FiberPc.holds + s.g_jobs.length ≤ s.heap.length
  alive_le : s.fibers.countP FiberPc.alive ≤ s.heap.length

/-! ## Background thread pool (`acPool.cpp`) -/

/-- Value of an integer as a 32-bit two's complement number (`int32_t`). -/
def wrap32 (x : Int) : Int := (x + 2147483648) % 4294967296 - 2147483648

/-- Program point of a background worker inside `_acThread::Run`.  The worker
advances by one atomic operation at a time. -/
inductive AcPc where
  /-- At the head of `while (1)`, before `s_idleThreads.inc()`. -/
  | top
  /-- After `inc()` returned more than `s_threads * 3`, before the `dec()`. -/
  | shrinking
  /-- Blocked in `s_acPool.get()`. -/
  | waiting
  /-- The call `s_acPool.get()` returned `p`, before `s_idleThreads.dec()`. -/
  | popped (p : Nat)
  /-- After `dec()` returned 0, before `new _acThread()`. -/
  | spawning (p : Nat)
  /-- Inside `p->invoke()`. -/
  | invoking (p : Nat)
  /-- After `break`. -/
  | exited
deriving DecidableEq, Repr

/-- Modelled from the spec: the class `exlib::atomic` is not among the sources.
The call `inc()` adds 1 atomically and returns the new value, which the shrink
test compares with the limit. -/
abbrev atomic_inc (v : Int) : Int := v + 1

/-- Modelled from the spec: the class `exlib::atomic` is not among the sources.
The call `dec()` subtracts 1 atomically and returns the new value, "the
idle-count that results from this worker becoming busy". -/
abbrev atomic_dec (v : Int) : Int := v - 1

/-- The file-level state of `acPool.cpp` and its worker threads.  `invoked`
logs the calls `p->invoke()` in the order they are entered. -/
structure AcPool where
  s_acPool : JobQueue
  s_threads : Int
  s_idleThreads : Int
  threads : List AcPc
  invoked : List Nat
deriving DecidableEq

/-- The function `init_acThread`; `detected` is what `os_base::CPUs` stores in
`cpus`.  The constructor of `_acThread` starts the thread. -/
def init_acThread (detected : Int) : AcPool :=
  let cpus := if detected < 3 then 3 else detected
  { s_acPool := [], s_threads := wrap32 (cpus * 3), s_idleThreads := 0,
    threads := [AcPc.top], invoked := [] }

/-- The method `AsyncEvent::async`: `s_acPool.put(this)`. -/
def async (s : AcPool) (p : Nat) : AcPool :=
  { s with s_acPool := s.s_acPool ++ [p] }

/-- The comparison value `s_threads * 3` of the shrink test. -/
def shrinkLimit (s : AcPool) : Int := wrap32 (s.s_threads * 3)

/-- One atomic operation of worker `i` in `_acThread::Run`.  The atomic
`inc()` and `dec()` return the new value of the counter. -/
def acStep (s : AcPool) (i : Nat) : AcPool :=
  match s.threads[i]? with
  | some AcPc.top =>
    let v := atomic_inc s.s_idleThreads
    if v > shrinkLimit s then
      { s with s_idleThreads := v, threads := s.threads.set i AcPc.shrinking }
    else
      { s with s_idleThreads := v, threads := s.threads.set i AcPc.waiting }
  | some AcPc.shrinking =>
    { s with s_idleThreads := atomic_dec s.s_idleThreads,
             threads := s.threads.set i AcPc.exited }
  | some AcPc.waiting =>
    match s.s_acPool with
    | p :: rest => { s with s_acPool := rest, threads := s.threads.set i (AcPc.popped p) }
    | [] => s
  | some (AcPc.popped p) =>
    let v := atomic_dec s.s_idleThreads
    if v == 0 then
      { s with s_idleThreads := v, threads := s.threads.set i (AcPc.spawning p) }
    else
      { s with s_idleThreads := v, threads := s.threads.set i (AcPc.invoking p),
               invoked := s.invoked ++ [p] }
  | some (AcPc.spawning p) =>
    { s with threads := s.threads.set i (AcPc.invoking p) ++ [AcPc.top],
             invoked := s.invoked ++ [p] }
  | some (AcPc.invoking _) =>
    { s with threads := s.threads.set i AcPc.top }
  | some AcPc.exited => s
  | none => s

/-- What can happen to the background pool. -/
inductive AcEvent where
  /-- Task `p` is submitted through `AsyncEvent::async`. -/
  | async (p : Nat)
  /-- Worker `i` performs its next atomic operation. -/
  | worker (i : Nat)

/-- Effect of one event on the background pool. -/
def acEventStep (s : AcPool) : AcEvent → AcPool
  | AcEvent.async p => async s p
  | AcEvent.worker i => acStep s i

/-- Effect of a sequence of events on the background pool. -/
def acRun (s : AcPool) (es : List AcEvent) : AcPool := es.foldl acEventStep s

/-- Whether the worker thread has not terminated. -/
def AcPc.alive : AcPc → Bool
  | AcPc.exited => false
  | _ => true

/-- Whether the worker is counted in `s_idleThreads`. -/
def AcPc.idle : AcPc → Bool
  | AcPc.shrinking => true
  | AcPc.waiting => true
  | AcPc.popped _ => true
  | _ => false

/-- Whether the worker is in or just past the blocking pop. -/
def AcPc.inGet : AcPc → Bool
  | AcPc.waiting => true
  | AcPc.popped _ => true
  | _ => false

/-- Whether the worker holds a task and has not yet passed the spawn test. -/
def AcPc.preSpawn : AcPc → Bool
  | AcPc.popped _ => true
  | AcPc.spawning _ => true
  | _ => false

/-- Number of alive worker threads. -/
def aliveThreads (s : AcPool) : Nat := s.threads.countP AcPc.alive

/-- Whether the event is a submission. -/
def AcEvent.isAsync : AcEvent → Bool
  | AcEvent.async _ => true
  | _ => false

/-- The events of round `k` of a burst of long-running tasks: task `k` is
submitted, the waiting worker `k` takes it, finds no idle worker left, creates
worker `k + 1` and enters the task; worker `k + 1` starts waiting. -/
def burstRound (k : Nat) : List AcEvent :=
  [AcEvent.async k, AcEvent.worker k, AcEvent.worker k, AcEvent.worker k,
   AcEvent.worker (k + 1)]

/-- The first worker starts waiting, then `n` rounds of the burst. -/
def burstTrace : Nat → List AcEvent
  | 0 => [AcEvent.worker 0]
  | n + 1 => burstTrace n ++ burstRound n

/-- The pool after `n` rounds of the burst with fewer than 3 detected CPUs:
`n` workers inside their tasks and one worker waiting. -/
def burstState (n : Nat) : AcPool :=
  { s_acPool := [], s_threads := 9, s_idleThreads := 1,
    threads := (List.range n).map AcPc.invoking ++ [AcPc.waiting],
    invoked := List.range n }

/-- Invariant of the background pool: the idle counter agrees with the program
points, the workers in the blocking pop respect the shrink limit, and every
worker but the first was created for a submitted task. -/
structure AcInv (limit : Int) (submitted : Nat) (s : AcPool) : Prop where
  idle_eq : s.s_idleThreads = (s.threads.countP AcPc.idle : Nat)
  inGet_le : (s.threads.countP AcPc.inGet : Nat) ≤ limit
  limit_eq : shrinkLimit s = limit
  alive_le : s.threads.countP AcPc.alive + s.s_acPool.length
               + s.threads.countP AcPc.preSpawn ≤ 1 + submitted

/-! ## Preemption watchdog (`_preemptThread::Run`) -/

/-- The locals of `_preemptThread::Run`. -/
structure Watchdog where
  lastTimes : Int
  cnt : Int
deriving DecidableEq, Repr

/-- What one poll sees after `sleep(100)`: whether `m_resume` is empty and the
current value of `m_switchTimes`. -/
structure Poll where
  resumeEmpty : Bool
  switchTimes : Int
deriving DecidableEq, Repr

/-- The locals before the loop: `lastTimes = m_switchTimes; cnt = 0`. -/
def preempt_init (switchTimes : Int) : Watchdog :=
  { lastTimes := switchTimes, cnt := 0 }

/-- One iteration of the loop of `_preemptThread::Run`.  The flag tells whether
`RequestInterrupt` was called. -/
def preempt_poll (w : Watchdog) (p : Poll) : Watchdog × Bool :=
  if p.resumeEmpty then
    ({ w with cnt := 0 }, false)
  else if w.lastTimes != p.switchTimes then
    ({ lastTimes := p.switchTimes, cnt := 0 }, false)
  else
    let cnt := w.cnt + 1
    if cnt == 2 then
      ({ w with cnt := 0 }, true)
    else
      ({ w with cnt := cnt }, false)

/-- The loop over a sequence of polls: final locals and, per poll, whether an
interrupt was requested. -/
def preempt_run (w : Watchdog) : List Poll → Watchdog × List Bool
  | [] => (w, [])
  | p :: ps =>
    let r := preempt_poll w p
    let rest := preempt_run r.1 ps
    (rest.1, r.2 :: rest.2)

/-- A stalled poll: work is pending and the switch counter still has the value
the watchdog recorded. -/
def Poll.stalled (w : Watchdog) (p : Poll) : Bool :=
  !p.resumeEmpty && p.switchTimes == w.lastTimes

/-! ## Scenarios -/

/-- Whether the event is a task submission. -/
def Event.isSubmit : Event → Bool
  | Event.sync _ => true
  | Event.start _ _ => true
  | _ => false

/-- Whether the event is a step of a coroutine. -/
def Event.isFiber : Event → Bool
  | Event.fiber _ => true
  | _ => false

/-- A task whose callable returns 42. -/
def task42 : JSFiber := JSFiber.fresh (fun _ => some 42) []

/-- A task whose callable returns 0. -/
def plainTask : JSFiber := JSFiber.fresh (fun _ => some 0) []

/-- Two tasks are run by two coroutines, both coroutines park under the
ceiling 256, then the ceiling is lowered to 1. -/
def loweredCeiling : List Event :=
  [Event.sync plainTask, Event.sync plainTask, Event.idle, Event.fiber 0, Event.idle,
   Event.fiber 1, Event.fiber 0, Event.fiber 1, Event.setSpare 1]

/-- The ceiling is set to 100 before any coroutine exists. -/
def configure100 : List Event := [Event.setSpare 100]

/-- One task is run and its coroutine parks. -/
def oneTaskParks : List Event :=
  [Event.sync plainTask, Event.idle, Event.fiber 0, Event.fiber 0]

/-- The scheduler after `init_fiber`, with the spare ceiling set to `S` and the
tasks `subs` submitted, before any coroutine exists. -/
def burstStart (S : Nat) (subs : List Event) : Sched :=
  run (step init_fiber (Event.setSpare S)) subs

/-- Whether every task object has its completion signal set. -/
def allDone (s : Sched) : Bool := s.heap.all (fun t => t.m_quit)

/-- Six submissions for the ceiling 1. -/
def sixTasks : List Event := List.replicate 6 (Event.sync plainTask)

/-- One coroutine is created and runs the six tasks one after the other. -/
def oneWorkerDrains : List Event :=
  [Event.idle, Event.fiber 0, Event.fiber 0, Event.fiber 0, Event.fiber 0, Event.fiber 0,
   Event.fiber 0, Event.fiber 0]

/-- The scenario of one task: submission to the state left by `init_fiber`,
idle hook, entry of the coroutine, return of the task. -/
def afterOne (t : JSFiber) : Sched :=
  fiberStep (fiberStep (onIdle (start init_fiber none t)) 0) 0

/-- The scenario of one task whose callable returns 42. -/
def after42 : Sched := afterOne task42

/-- A scheduler at the hard ceiling: 10000 coroutines, each inside a task. -/
def fullSched : Sched :=
  { g_jobs := [], s_fibers := MAX_FIBER, s_idleFibers := 0, g_spareFibers := MAX_IDLE,
    fibers := (List.range 10000).map FiberPc.invoking,
    heap := List.replicate 10000 plainTask }

/-- A coroutine inside task 0 with an empty queue and one coroutine parked. -/
def lastTaskRunning (spare : Int) : Sched :=
  { g_jobs := [], s_fibers := 2, s_idleFibers := 1, g_spareFibers := spare,
    fibers := [FiberPc.invoking 0, FiberPc.parked], heap := [plainTask, plainTask] }

/-! ## Caller queries and the sentinel context -/

/-- Modelled from the spec: the result codes `CALL_RETURN_NULL` and
`CALL_E_INVALID_CALL` and the macro `CHECK_ERROR` are declared in a header that
is not among the sources.  `ok` is the returned 0, `CALL_RETURN_NULL` is the
benign "no such value" result of section 7 (c), and `CALL_E_INVALID_CALL`, the
code handed to `CHECK_ERROR`, is an error code. -/
inductive ResultCode where
  | ok
  | CALL_RETURN_NULL
  | CALL_E_INVALID_CALL
deriving DecidableEq, Repr

/-- Whether the result code reports an error. -/
def ResultCode.isError : ResultCode → Bool
  | ResultCode.CALL_E_INVALID_CALL => true
  | _ => false

/-- What an engine-side fiber object points to: the execution context of a
coroutine task, or the sentinel `s_null` that `scope::~scope` installs when the
task has finished. -/
inductive Fiber_base where
  | fiber (t : JSFiber)
  | null_fiber_data

/-- The virtual method `get_caller`: result code and the content of `retVal`
after the call.  `FiberBase::get_caller` returns `CALL_RETURN_NULL` without
touching `retVal` when `m_caller` is null and stores the caller otherwise;
`null_fiber_data::get_caller` returns `CHECK_ERROR(CALL_E_INVALID_CALL)`. -/
def get_caller (self : Fiber_base) (retVal : Option Nat) : ResultCode × Option Nat :=
  match self with
  | Fiber_base.fiber t =>
    match t.m_caller with
    | none => (ResultCode.CALL_RETURN_NULL, retVal)
    | some c => (ResultCode.ok, some c)
  | Fiber_base.null_fiber_data => (ResultCode.CALL_E_INVALID_CALL, retVal)

/-- The method `null_fiber_data::join`: `return 0`. -/
def null_join : ResultCode := ResultCode.ok

/-- The method `null_fiber_data::get_traceInfo`: `return 0`, `retVal` is left
as it was. -/
def null_get_traceInfo (retVal : String) : ResultCode × String := (ResultCode.ok, retVal)

/-- A running context whose object carries the properties 1 and 2. -/
def callerCtx : JSFiber := { plainTask with props := [(1, 5), (2, 7)] }

/-- A new context whose object carries the properties 2 and 3. -/
def nestedCtx : JSFiber := { task42 with props := [(2, 0), (3, 9)] }

/-! ## Event trace of a coroutine worker -/

/-- What a coroutine running `fiber_proc` does, as far as the engine lock, the
job queue, the counters and the task are concerned, including what the
callable does to the engine lock while it is being called. -/
inductive FiberEv where
  /-- Exclusive engine access is taken: `v8::Locker` is constructed, the
  `v8::Unlocker` around `get()` is destroyed, or a wait inside the callable
  ends (`Isolate::rt` is destroyed after `m_quit.wait()` in `join`). -/
  | acquire
  /-- Exclusive engine access is given up: the `v8::Unlocker` is constructed,
  the `v8::Locker` is destroyed on return, or a wait inside the callable begins
  (`Isolate::rt` is constructed before `m_quit.wait()` in `join`). -/
  | release
  /-- The non-blocking `g_jobs.tryget()` with its result. -/
  | tryget (r : Option Nat)
  /-- The blocking `g_jobs.get()` is entered. -/
  | popBegin
  /-- The blocking `g_jobs.get()` returns `ae`. -/
  | popEnd (ae : Nat)
  /-- The statement `s_idleFibers ++`. -/
  | idleInc
  /-- The statement `s_idleFibers --`. -/
  | idleDec
  /-- The statement `s_fibers --`. -/
  | fibersDec
  /-- Inside `ae->js_invoke()`: `func->Call` with the captured arguments. -/
  | call (ae : Nat)
  /-- At the end of `ae->js_invoke()`: `m_quit.set()` in `scope::~scope`. -/
  | quitSet (ae : Nat)
deriving DecidableEq, Repr

/-- Events of one pass from the head of `while (1)` to the next suspension
point, in the state `s` in which the pass starts (compare `fiber_loop`). -/
def fiber_loop_events (s : Sched) : List FiberEv :=
  match s.g_jobs with
  | ae :: _ => [FiberEv.tryget (some ae), FiberEv.call ae]
  | [] =>
    if s.s_idleFibers + 1 > s.g_spareFibers then
      [FiberEv.tryget none, FiberEv.idleInc, FiberEv.idleDec, FiberEv.fibersDec,
       FiberEv.release]
    else
      [FiberEv.tryget none, FiberEv.idleInc, FiberEv.release, FiberEv.popBegin]

/-- What `n` waits inside a callable do to the engine lock: each wait (a
`join` on an unfinished task, a sleep) gives the lock up for its duration and
takes it back before the callable goes on. -/
def waitEvents : Nat → List FiberEv
  | 0 => []
  | n + 1 => FiberEv.release :: FiberEv.acquire :: waitEvents n

/-- Events of coroutine `i` while it runs from its current suspension point to
the next one (compare `fiberStep`).  The callables are script code outside the
sources; `waits ae` is the number of times the callable of task `ae` waits
before it returns. -/
def fiberStepEvents (waits : Nat → Nat) (s : Sched) (i : Nat) : List FiberEv :=
  match s.fibers[i]? with
  | some FiberPc.created =>
    [FiberEv.acquire, FiberEv.idleDec]
      ++ fiber_loop_events { s with s_idleFibers := s.s_idleFibers - 1 }
  | some (FiberPc.invoking ae) =>
    waitEvents (waits ae) ++ [FiberEv.quitSet ae]
      ++ fiber_loop_events { s with heap := invokeAt s.heap ae }
  | some FiberPc.parked =>
    match s.g_jobs with
    | ae :: _ => [FiberEv.popEnd ae]
    | [] => []
  | some (FiberPc.woken ae) => [FiberEv.acquire, FiberEv.idleDec, FiberEv.call ae]
  | some FiberPc.exited => []
  | none => []

/-- Events of coroutine `i` caused by one scheduler event. -/
def stepEvents (waits : Nat → Nat) (i : Nat) (s : Sched) : Event → List FiberEv
  | Event.fiber j => if j = i then fiberStepEvents waits s i else []
  | _ => []

/-- The event trace of coroutine `i` over a sequence of scheduler events. -/
def traceOf (waits : Nat → Nat) (i : Nat) : Sched → List Event → List FiberEv
  | _, [] => []
  | s, e :: es => stepEvents waits i s e ++ traceOf waits i (step s e) es

/-- Lock discipline of a trace, given whether the lock is held at its start:
a task is called and completed only while the lock is held, the blocking pop
is entered and left only while it is not held. -/
def lockSafe : Bool → List FiberEv → Bool
  | _, [] => true
  | _, FiberEv.acquire :: rest => lockSafe true rest
  | _, FiberEv.release :: rest => lockSafe false rest
  | held, FiberEv.call _ :: rest => held && lockSafe held rest
  | held, FiberEv.quitSet _ :: rest => held && lockSafe held rest
  | held, FiberEv.popBegin :: rest => !held && lockSafe held rest
  | held, FiberEv.popEnd _ :: rest => !held && lockSafe held rest
  | held, _ :: rest => lockSafe held rest

/-- Where a coroutine worker stands in its protocol. -/
inductive WorkerSt where
  /-- Nothing done yet. -/
  | fresh
  /-- Holding the lock, no task at hand. -/
  | locked
  /-- Holding the lock and a task that has not been called yet. -/
  | fetched (ae : Nat)
  /-- Holding the lock, inside the call of the task. -/
  | running (ae : Nat)
  /-- Inside the call of the task, in a wait of the callable, without the
  lock. -/
  | waiting (ae : Nat)
  /-- The lock has been given up. -/
  | unlocked
  /-- Inside the blocking pop, without the lock. -/
  | popping
  /-- The blocking pop has delivered a task, the lock is not yet taken back. -/
  | popped (ae : Nat)
deriving DecidableEq, Repr

/-- Whether the worker holds the lock. -/
def WorkerSt.held : WorkerSt → Bool
  | WorkerSt.locked => true
  | WorkerSt.fetched _ => true
  | WorkerSt.running _ => true
  | _ => false

/-- The protocol of a coroutine worker: which event may follow in which
state.  The lock is taken at the start and after the blocking pop; a task
obtained by either pop is called once, then completed, under the lock; inside
the call a wait of the callable gives the lock up and takes it back; outside a
call the lock is given up only with no task at hand, and then only the
blocking pop may follow. -/
def workerNext : WorkerSt → FiberEv → Option WorkerSt
  | WorkerSt.fresh, FiberEv.acquire => some WorkerSt.locked
  | WorkerSt.locked, FiberEv.idleDec => some WorkerSt.locked
  | WorkerSt.locked, FiberEv.idleInc => some WorkerSt.locked
  | WorkerSt.locked, FiberEv.fibersDec => some WorkerSt.locked
  | WorkerSt.locked, FiberEv.tryget none => some WorkerSt.locked
  | WorkerSt.locked, FiberEv.tryget (some ae) => some (WorkerSt.fetched ae)
  | WorkerSt.locked, FiberEv.release => some WorkerSt.unlocked
  | WorkerSt.fetched ae, FiberEv.idleDec => some (WorkerSt.fetched ae)
  | WorkerSt.fetched ae, FiberEv.call b => if ae = b then some (WorkerSt.running ae) else none
  | WorkerSt.running ae, FiberEv.quitSet b => if ae = b then some WorkerSt.locked else none
  | WorkerSt.running ae, FiberEv.release => some (WorkerSt.waiting ae)
  | WorkerSt.waiting ae, FiberEv.acquire => some (WorkerSt.running ae)
  | WorkerSt.unlocked, FiberEv.popBegin => some WorkerSt.popping
  | WorkerSt.popping, FiberEv.popEnd ae => some (WorkerSt.popped ae)
  | WorkerSt.popped ae, FiberEv.acquire => some (WorkerSt.fetched ae)
  | _, _ => none

/-- Follow the protocol along a trace; `none` when an event is out of place. -/
def workerRun : WorkerSt → List FiberEv → Option WorkerSt
  | st, [] => some st
  | st, e :: es =>
    match workerNext st e with
    | some st1 => workerRun st1 es
    | none => none

/-- The protocol state that belongs to a program point of `fiber_proc`. -/
def pcSt : Option FiberPc → WorkerSt
  | some (FiberPc.invoking ae) => WorkerSt.running ae
  | some FiberPc.parked => WorkerSt.popping
  | some (FiberPc.woken ae) => WorkerSt.popped ae
  | some FiberPc.exited => WorkerSt.unlocked
  | some FiberPc.created => WorkerSt.fresh
  | none => WorkerSt.fresh

/-- Callables that never wait: each returns at once. -/
def noWaits : Nat → Nat := fun _ => 0

/-- Two tasks are submitted; one coroutine is created and runs both. -/
def twoTasksOneWorker : List Event :=
  [Event.sync plainTask, Event.sync plainTask, Event.idle, Event.fiber 0, Event.fiber 0,
   Event.fiber 0]

/-! ## Hex encoding (`encoding.cpp`) -/

/-- The table `HexChar`, "0123456789abcdef", as character codes. -/
def HexChar : List Nat :=
  [48, 49, 50, 51, 52, 53, 54, 55, 56, 57, 97, 98, 99, 100, 101, 102]

/-- The loop of `hexEncode` over the bytes not yet encoded: byte `c` at
position `pos` writes `HexChar[c >> 4]` to `retVal[pos * 2]` and
`HexChar[c & 0xf]` to `retVal[pos * 2 + 1]`. -/
def hexEncodeLoop : List Nat → Nat → List Nat → List Nat
  | [], _, retVal => retVal
  | c :: rest, pos, retVal =>
    let r1 := retVal.set (pos * 2) (HexChar.getD ((c % 256) >>> 4) 0)
    let r2 := r1.set (pos * 2 + 1) (HexChar.getD ((c % 256) &&& 0xf) 0)
    hexEncodeLoop rest (pos + 1) r2

/-- The function `encoding_base::hexEncode` on the bytes of the buffer.  The
result string is resized to `i = (int32_t) length * 2`, computed in 32 bits;
a negative `i` becomes a size beyond `max_size()` and `retVal.resize(i)` throws
`std::length_error`, which is the result `none`.  Otherwise the loop, which
runs while `i < (int32_t) length`, fills the string. -/
def hexEncode (strData : List Nat) : Option (List Nat) :=
  let i := wrap32 (wrap32 strData.length * 2)
  if i < 0 then none
  else
    some (hexEncodeLoop (strData.take (wrap32 strData.length).toNat) 0
      (List.replicate i.toNat 0))

/-- A buffer of 2^30 zero bytes. -/
def gibiBuffer : List Nat := List.replicate 1073741824 0

/-- The two characters per byte that the loop of `hexEncode` produces, in
order: high digit, low digit. -/
def hexPairs : List Nat → List Nat
  | [] => []
  | c :: rest => HexChar.getD (c / 16) 0 :: HexChar.getD (c % 16) 0 :: hexPairs rest

/-- The helpers of `hexDecode` that are declared outside the sources, taken as
parameters: `utf8_getchar(data, end)` returns the next character of the bytes
left before `end` (0 when none is left) together with the bytes left after it,
`qisxdigit` tells whether a character is a hex digit, `qhex` gives its
value. -/
structure HexHelpers where
  utf8_getchar : List Nat → Nat × List Nat
  qisxdigit : Nat → Bool
  qhex : Nat → Nat

/-- What `hexDecode` leaves: the content of `strBuf` and, in order, the indices
at which `strBuf[pos++] = ...` wrote. -/
structure HexOut where
  strBuf : List Nat
  writes : List Nat
deriving DecidableEq, Repr

/-- The loop `while ((ch1 = utf8_getchar(data, end)) != 0)` of `hexDecode` with
a bound on the number of iterations; `none` when the bound is exhausted.  The
characters are `uint32_t`, the stored `(ch1 << 4) + ch2` is cut to a byte. -/
def hexDecodeLoop (h : HexHelpers) : Nat → List Nat → Nat → List Nat → List Nat → Option HexOut
  | 0, _, _, _, _ => none
  | fuel + 1, data, pos, strBuf, writes =>
    let r1 := h.utf8_getchar data
    if r1.1 = 0 then
      some { strBuf := strBuf, writes := writes }
    else if h.qisxdigit r1.1 then
      let ch1 := h.qhex r1.1
      let r2 := h.utf8_getchar r1.2
      if r2.1 = 0 then
        some { strBuf := strBuf, writes := writes }
      else
        let hi := if h.qisxdigit r2.1 then ch1 else 0
        let lo := if h.qisxdigit r2.1 then h.qhex r2.1 else ch1
        hexDecodeLoop h fuel r2.2 (pos + 1)
          (strBuf.set pos ((((hi % 4294967296) <<< 4) + lo) % 4294967296 % 256))
          (writes ++ [pos])
    else
      hexDecodeLoop h fuel r1.2 pos strBuf writes

/-- The function `encoding_base::hexDecode` on the bytes of `data` before its
terminating NUL: `len = (int32_t) qstrlen(data)`, `strBuf.resize(len / 2)`,
then the loop over the bytes before `end = data + len`.  One iteration per
byte and one more suffice when every character takes at least one byte. -/
def hexDecode (h : HexHelpers) (data : List Nat) : Option HexOut :=
  let len := wrap32 data.length
  hexDecodeLoop h (data.length + 1) (data.take len.toNat) 0
    (List.replicate (len.toNat / 2) 0) []

/-- Number of continuation bytes announced by a UTF-8 lead byte. -/
def utf8_more (c : Nat) : Nat :=
  if c < 192 then 0 else if c < 224 then 1 else if c < 240 then 2 else 3

/-- A reading of the helpers for concrete runs: `utf8_getchar` takes one byte
below 0x80 as it is and a lead byte together with the continuation bytes it
announces, `qisxdigit` accepts 0-9, a-f and A-F, `qhex` gives the digit's
value. -/
def stdHelpers : HexHelpers :=
  { utf8_getchar := fun data =>
      match data with
      | [] => (0, [])
      | c :: rest =>
        if c < 128 then (c, rest)
        else ((rest.take (utf8_more c)).foldl (fun acc b => acc * 64 + b % 64)
                (c % (if c < 224 then 32 else if c < 240 then 16 else 8)),
              rest.drop (utf8_more c))
    qisxdigit := fun ch =>
      (decide (48 ≤ ch) && decide (ch ≤ 57)) || (decide (97 ≤ ch) && decide (ch ≤ 102))
        || (decide (65 ≤ ch) && decide (ch ≤ 70))
    qhex := fun ch =>
      if 48 ≤ ch ∧ ch ≤ 57 then ch - 48
      else if 97 ≤ ch ∧ ch ≤ 102 then ch - 97 + 10
      else ch - 65 + 10 }

/-- The bytes of "a?b" followed by a two-byte character and "4Z": an input of
odd length with non-hex and multi-byte characters. -/
def oddInput : List Nat := [97, 63, 98, 195, 169, 52, 90]

/-! ## Counting coroutines by program point -/

theorem b2n_true : b2n true = 1 := rfl

theorem b2n_false : b2n false = 0 := rfl

/-- Replacing one entry of a list changes a count by the entry's contribution. -/
theorem countP_set_add {α : Type} (p : α → Bool) (l : List α) (i : Nat) (a b : α)
    (h : l[i]? = some a) :
    (l.set i b).countP p + b2n (p a) = l.countP p + b2n (p b) := by
  induction l generalizing i with
  | nil => simp at h
  | cons x xs ih =>
    cases i with
    | zero =>
      simp at h
      subst h
      simp only [List.set_cons_zero, List.countP_cons, b2n]
      omega
    | succ j =>
      simp at h
      have := ih j h
      simp only [List.set_cons_succ, List.countP_cons, b2n] at *
      omega

/-- The same with the two contributions given as numbers. -/
theorem countP_set_num {α : Type} (p : α → Bool) (l : List α) (i : Nat) (a b : α)
    (na nb : Nat) (h : l[i]? = some a) (ha : b2n (p a) = na) (hb : b2n (p b) = nb) :
    (l.set i b).countP p + na = l.countP p + nb := by
  subst ha hb
  exact countP_set_add p l i a b h

theorem countInv_init : CountInv init_fiber := by
  constructor <;> simp [init_fiber, MAX_FIBER]

theorem countInv_onIdle (s : Sched) (h : CountInv s) : CountInv (onIdle s) := by
  obtain ⟨h1, h2, h3⟩ := h
  unfold onIdle
  split
  · rename_i hc
    simp only [Bool.and_eq_true, decide_eq_true_eq] at hc
    have e1 : FiberPc.alive FiberPc.created = true := rfl
    have e2 : FiberPc.idle FiberPc.created = true := rfl
    refine ⟨?_, ?_, ?_⟩ <;>
      simp only [List.countP_append, List.countP_cons, List.countP_nil, e1, e2, if_true,
        Nat.cast_add, Nat.cast_one, Nat.cast_zero] <;> omega
  · exact ⟨h1, h2, h3⟩

theorem countInv_fiber_loop (s : Sched) (i : Nat) (pc : FiberPc)
    (hpc : s.fibers[i]? = some pc) (hal : pc.alive = true)
    (h1 : s.s_fibers = (s.fibers.countP FiberPc.alive : Nat))
    (h2 : s.s_idleFibers + (b2n pc.idle : Nat) = (s.fibers.countP FiberPc.idle : Nat))
    (h3 : s.s_fibers ≤ MAX_FIBER) : CountInv (fiber_loop s i) := by
  have ea := fun b => countP_set_add FiberPc.alive s.fibers i pc b hpc
  have ei := fun b => countP_set_add FiberPc.idle s.fibers i pc b hpc
  rw [hal, b2n_true] at ea
  unfold fiber_loop
  split
  · rename_i ae rest _
    have a1 : _ + 1 = _ + 1 := ea (FiberPc.invoking ae)
    have i1 : _ + _ = _ + 0 := ei (FiberPc.invoking ae)
    refine ⟨?_, ?_, ?_⟩ <;> dsimp only <;> omega
  · dsimp only
    split
    · have a1 : _ + 1 = _ + 0 := ea FiberPc.exited
      have i1 : _ + _ = _ + 0 := ei FiberPc.exited
      refine ⟨?_, ?_, ?_⟩ <;> dsimp only <;> omega
    · have a1 : _ + 1 = _ + 1 := ea FiberPc.parked
      have i1 : _ + _ = _ + 1 := ei FiberPc.parked
      refine ⟨?_, ?_, ?_⟩ <;> dsimp only <;> omega

theorem countInv_fiberStep (s : Sched) (i : Nat) (h : CountInv s) :
    CountInv (fiberStep s i) := by
  obtain ⟨h1, h2, h3⟩ := h
  unfold fiberStep
  split
  · rename_i hpc
    exact countInv_fiber_loop _ i _ hpc rfl h1
      (by show s.s_idleFibers - 1 + ((1 : Nat) : Int) = (s.fibers.countP FiberPc.idle : Nat); omega) h3
  · rename_i ae hpc
    exact countInv_fiber_loop _ i _ hpc rfl h1
      (by show s.s_idleFibers + ((0 : Nat) : Int) = (s.fibers.countP FiberPc.idle : Nat); omega) h3
  · rename_i hpc
    unfold fiber_get
    split
    · rename_i ae rest _
      have a1 : _ + 1 = _ + 1 := countP_set_add FiberPc.alive s.fibers i _ (FiberPc.woken ae) hpc
      have i1 : _ + 1 = _ + 1 := countP_set_add FiberPc.idle s.fibers i _ (FiberPc.woken ae) hpc
      refine ⟨?_, ?_, ?_⟩ <;> dsimp only <;> omega
    · exact ⟨h1, h2, h3⟩
  · rename_i ae hpc
    have a1 : _ + 1 = _ + 1 := countP_set_add FiberPc.alive s.fibers i _ (FiberPc.invoking ae) hpc
    have i1 : _ + 1 = _ + 0 := countP_set_add FiberPc.idle s.fibers i _ (FiberPc.invoking ae) hpc
    unfold fiber_resume
    refine ⟨?_, ?_, ?_⟩ <;> dsimp only <;> omega
  · exact ⟨h1, h2, h3⟩
  · exact ⟨h1, h2, h3⟩

theorem countInv_step (s : Sched) (e : Event) (h : CountInv s) : CountInv (step s e) := by
  cases e with
  | sync t => exact ⟨h.1, h.2, h.3⟩
  | start cur t => exact ⟨h.1, h.2, h.3⟩
  | idle => exact countInv_onIdle s h
  | fiber i => exact countInv_fiberStep s i h
  | setSpare v => exact ⟨h.1, h.2, h.3⟩

theorem countInv_run (es : List Event) (s : Sched) (h : CountInv s) : CountInv (run s es) := by
  induction es generalizing s with
  | nil => exact h
  | cons e es ih => exact ih _ (countInv_step s e h)

/-! ## The blocking pop and the spare ceiling -/

theorem inGet_le_idle (l : List FiberPc) :
    l.countP FiberPc.inGet ≤ l.countP FiberPc.idle := by
  induction l with
  | nil => simp
  | cons x xs ih =>
    cases x <;> simp [List.countP_cons, FiberPc.inGet, FiberPc.idle] <;> omega

theorem alive_le_idle_add_holds (l : List FiberPc) :
    l.countP FiberPc.alive ≤ l.countP FiberPc.idle + l.countP FiberPc.holds := by
  induction l with
  | nil => simp
  | cons x xs ih =>
    cases x <;> simp [List.countP_cons, FiberPc.alive, FiberPc.idle, FiberPc.holds] <;> omega

theorem steady_idle_eq_inGet (l : List FiberPc) (h : l.all FiberPc.steady = true) :
    l.countP FiberPc.idle = l.countP FiberPc.inGet := by
  induction l with
  | nil => simp
  | cons x xs ih =>
    simp only [List.all_cons, Bool.and_eq_true] at h
    have := ih h.2
    have hx := h.1
    cases x <;> simp [List.countP_cons, FiberPc.inGet, FiberPc.idle, FiberPc.steady] at * <;> omega

theorem parked_alive_eq_inGet (l : List FiberPc) (h : l.all FiberPc.parkedOrGone = true) :
    l.countP FiberPc.alive = l.countP FiberPc.inGet := by
  induction l with
  | nil => simp
  | cons x xs ih =>
    simp only [List.all_cons, Bool.and_eq_true] at h
    have := ih h.2
    have hx := h.1
    cases x <;>
      simp [List.countP_cons, FiberPc.inGet, FiberPc.alive, FiberPc.parkedOrGone] at * <;> omega

theorem spareInv_fiber_loop (m : Int) (s : Sched) (i : Nat) (pc : FiberPc)
    (hpc : s.fibers[i]? = some pc) (hci : CountInv (fiber_loop s i))
    (h : SpareInv m s) : SpareInv m (fiber_loop s i) := by
  obtain ⟨h1, h2⟩ := h
  have eg := fun b => countP_set_add FiberPc.inGet s.fibers i pc b hpc
  have hidle := hci.idle_eq
  cases hq : s.g_jobs with
  | cons ae rest =>
    simp only [fiber_loop, hq] at hidle ⊢
    have g1 : _ + _ = _ + 0 := eg (FiberPc.invoking ae)
    refine ⟨?_, ?_⟩ <;> dsimp only <;> omega
  | nil =>
    by_cases hgt : s.s_idleFibers + 1 > s.g_spareFibers
    · simp only [fiber_loop, hq, hgt, if_true] at hidle ⊢
      have g1 : _ + _ = _ + 0 := eg FiberPc.exited
      refine ⟨?_, ?_⟩ <;> dsimp only <;> omega
    · simp only [fiber_loop, hq, hgt, if_false] at hidle ⊢
      have g1 := inGet_le_idle (s.fibers.set i FiberPc.parked)
      refine ⟨?_, ?_⟩ <;> dsimp only <;> omega

theorem spareInv_step (m : Int) (s : Sched) (e : Event) (hc : CountInv s)
    (he : e.spareLe m = true) (h : SpareInv m s) : SpareInv m (step s e) := by
  have hc2 := countInv_step s e hc
  obtain ⟨h1, h2⟩ := h
  cases e with
  | sync t => exact ⟨h1, h2⟩
  | start cur t => exact ⟨h1, h2⟩
  | setSpare v => exact ⟨h1, by simpa [Event.spareLe] using he⟩
  | idle =>
    simp only [step, onIdle]
    split
    · have e1 : FiberPc.inGet FiberPc.created = false := rfl
      refine ⟨?_, h2⟩
      simp only [List.countP_append, List.countP_cons, List.countP_nil, e1]
      simpa using h1
    · exact ⟨h1, h2⟩
  | fiber i =>
    simp only [step, fiberStep] at hc2 ⊢
    split at hc2
    · rename_i hpc
      exact spareInv_fiber_loop m _ i _ hpc hc2 ⟨h1, h2⟩
    · rename_i ae hpc
      exact spareInv_fiber_loop m _ i _ hpc hc2 ⟨h1, h2⟩
    · rename_i hpc
      simp only [fiber_get]
      split
      · rename_i ae rest _
        have g1 : _ + 1 = _ + 1 :=
          countP_set_add FiberPc.inGet s.fibers i _ (FiberPc.woken ae) hpc
        refine ⟨?_, h2⟩
        dsimp only
        omega
      · exact ⟨h1, h2⟩
    · rename_i ae hpc
      simp only [fiber_resume]
      have g1 : _ + 1 = _ + 0 :=
        countP_set_add FiberPc.inGet s.fibers i _ (FiberPc.invoking ae) hpc
      refine ⟨?_, h2⟩
      dsimp only
      omega
    · exact ⟨h1, h2⟩
    · exact ⟨h1, h2⟩

theorem spareInv_run (m : Int) (es : List Event) (s : Sched) (hc : CountInv s)
    (he : es.all (Event.spareLe m) = true) (h : SpareInv m s) : SpareInv m (run s es) := by
  induction es generalizing s with
  | nil => exact h
  | cons e es ih =>
    simp only [List.all_cons, Bool.and_eq_true] at he
    exact ih _ (countInv_step s e hc) he.2 (spareInv_step m s e hc he.1 h)

/-! ## Coroutines and submitted tasks -/

theorem invokeAt_length (heap : List JSFiber) (ae : Nat) :
    (invokeAt heap ae).length = heap.length := by
  unfold invokeAt
  split <;> simp

theorem taskInv_fiber_loop (s : Sched) (i : Nat) (pc : FiberPc)
    (hpc : s.fibers[i]? = some pc) (hal : pc.alive = true)
    (h1 : s.fibers.countP FiberPc.holds + s.g_jobs.length ≤ s.heap.length + b2n pc.holds)
    (h2 : s.fibers.countP FiberPc.alive ≤ s.heap.length) : TaskInv (fiber_loop s i) := by
  have ea := fun b => countP_set_add FiberPc.alive s.fibers i pc b hpc
  have eh := fun b => countP_set_add FiberPc.holds s.fibers i pc b hpc
  rw [hal, b2n_true] at ea
  unfold fiber_loop
  split
  · rename_i ae rest hq
    rw [hq] at h1
    have a1 : _ + 1 = _ + 1 := ea (FiberPc.invoking ae)
    have e1 : _ + _ = _ + 1 := eh (FiberPc.invoking ae)
    simp only [List.length_cons] at h1
    refine ⟨?_, ?_⟩ <;> dsimp only <;> omega
  · dsimp only
    split
    · have a1 : _ + 1 = _ + 0 := ea FiberPc.exited
      have e1 : _ + _ = _ + 0 := eh FiberPc.exited
      refine ⟨?_, ?_⟩ <;> dsimp only <;> omega
    · have a1 : _ + 1 = _ + 1 := ea FiberPc.parked
      have e1 : _ + _ = _ + 0 := eh FiberPc.parked
      refine ⟨?_, ?_⟩ <;> dsimp only <;> omega

theorem taskInv_step (s : Sched) (e : Event) (hc : CountInv s) (h : TaskInv s) :
    TaskInv (step s e) := by
  obtain ⟨h1, h2⟩ := h
  cases e with
  | sync t =>
    refine ⟨?_, ?_⟩ <;> simp only [step, sync, List.length_append, List.length_singleton] <;> omega
  | start cur t =>
    refine ⟨?_, ?_⟩ <;> simp only [step, start, List.length_append, List.length_singleton] <;> omega
  | setSpare v => exact ⟨h1, h2⟩
  | idle =>
    simp only [step, onIdle]
    split
    · rename_i hcond
      simp only [Bool.and_eq_true, decide_eq_true_eq, Bool.not_eq_true', beq_iff_eq] at hcond
      obtain ⟨⟨hne, hi0⟩, _⟩ := hcond
      have hq : 1 ≤ s.g_jobs.length := by
        cases hj : s.g_jobs with
        | nil => simp [hj] at hne
        | cons a l => simp
      have hi := hc.idle_eq
      have hah := alive_le_idle_add_holds s.fibers
      have e1 : FiberPc.alive FiberPc.created = true := rfl
      have e2 : FiberPc.holds FiberPc.created = false := rfl
      refine ⟨?_, ?_⟩ <;>
        simp only [List.countP_append, List.countP_cons, List.countP_nil, e1, e2, if_true,
          Bool.false_eq_true, if_false] <;>
        omega
    · exact ⟨h1, h2⟩
  | fiber i =>
    simp only [step, fiberStep]
    split
    · rename_i hpc
      exact taskInv_fiber_loop _ i _ hpc rfl
        (by show s.fibers.countP FiberPc.holds + s.g_jobs.length ≤ s.heap.length + 0; omega) h2
    · rename_i ae hpc
      exact taskInv_fiber_loop _ i _ hpc rfl
        (by show s.fibers.countP FiberPc.holds + s.g_jobs.length
                ≤ (invokeAt s.heap ae).length + 1
            rw [invokeAt_length]; omega)
        (by show s.fibers.countP FiberPc.alive ≤ (invokeAt s.heap ae).length
            rw [invokeAt_length]; exact h2)
    · rename_i hpc
      simp only [fiber_get]
      split
      · rename_i ae rest hq
        rw [hq] at h1
        simp only [List.length_cons] at h1
        have a1 : _ + 1 = _ + 1 :=
          countP_set_add FiberPc.alive s.fibers i _ (FiberPc.woken ae) hpc
        have g1 := countP_set_num FiberPc.holds s.fibers i _ (FiberPc.woken ae) 0 1 hpc rfl rfl
        refine ⟨?_, ?_⟩ <;> dsimp only <;> omega
      · exact ⟨h1, h2⟩
    · rename_i ae hpc
      simp only [fiber_resume]
      have a1 : _ + 1 = _ + 1 :=
        countP_set_add FiberPc.alive s.fibers i _ (FiberPc.invoking ae) hpc
      have g1 : _ + 1 = _ + 1 :=
        countP_set_add FiberPc.holds s.fibers i _ (FiberPc.invoking ae) hpc
      refine ⟨?_, ?_⟩ <;> dsimp only <;> omega
    · exact ⟨h1, h2⟩
    · exact ⟨h1, h2⟩

theorem taskInv_run (es : List Event) (s : Sched) (hc : CountInv s) (h : TaskInv s) :
    TaskInv (run s es) := by
  induction es generalizing s with
  | nil => exact h
  | cons e es ih => exact ih _ (countInv_step s e hc) (taskInv_step s e hc h)

theorem run_append (s : Sched) (es fs : List Event) : run s (es ++ fs) = run (run s es) fs := by
  simp [run, List.foldl_append]

/-- Scheduler steps neither submit tasks nor touch the ceiling. -/
theorem schedStep_frame (s : Sched) (e : Event) (he : e.isSchedStep = true) :
    (step s e).heap.length = s.heap.length ∧ (step s e).g_spareFibers = s.g_spareFibers := by
  cases e with
  | sync t => simp [Event.isSchedStep] at he
  | start cur t => simp [Event.isSchedStep] at he
  | setSpare v => simp [Event.isSchedStep] at he
  | idle =>
    simp only [step, onIdle]
    split <;> exact ⟨rfl, rfl⟩
  | fiber i =>
    simp only [step, fiberStep]
    split
    · simp only [fiber_entry, fiber_loop]
      split
      · exact ⟨rfl, rfl⟩
      · split <;> exact ⟨rfl, rfl⟩
    · simp only [fiber_finish, fiber_loop]
      split
      · exact ⟨invokeAt_length _ _, rfl⟩
      · split <;> exact ⟨invokeAt_length _ _, rfl⟩
    · simp only [fiber_get]
      split <;> exact ⟨rfl, rfl⟩
    · exact ⟨rfl, rfl⟩
    · exact ⟨rfl, rfl⟩
    · exact ⟨rfl, rfl⟩

theorem schedSteps_frame (es : List Event) (s : Sched)
    (he : es.all Event.isSchedStep = true) :
    (run s es).heap.length = s.heap.length ∧ (run s es).g_spareFibers = s.g_spareFibers := by
  induction es generalizing s with
  | nil => exact ⟨rfl, rfl⟩
  | cons e es ih =>
    simp only [List.all_cons, Bool.and_eq_true] at he
    have h1 := schedStep_frame s e he.1
    have h2 := ih (step s e) he.2
    exact ⟨h2.1.trans h1.1, h2.2.trans h1.2⟩

/-! ## The coroutine pool: capacity -/

theorem idle_le_alive (l : List FiberPc) :
    l.countP FiberPc.idle ≤ l.countP FiberPc.alive := by
  induction l with
  | nil => simp
  | cons x xs ih =>
    cases x <;> simp [List.countP_cons, FiberPc.alive, FiberPc.idle] <;> omega

/-- Both counters stay within `0 .. 10000` in every reachable state, so the
`int32_t` arithmetic of the source never wraps. -/
theorem sched_counters_in_range (es : List Event) :
    0 ≤ (run init_fiber es).s_idleFibers ∧
    (run init_fiber es).s_idleFibers ≤ (run init_fiber es).s_fibers ∧
    (run init_fiber es).s_fibers ≤ 10000 := by
  have h := countInv_run es init_fiber countInv_init
  have h1 := h.fibers_eq
  have h2 := h.idle_eq
  have h3 := h.fibers_le
  have h4 := idle_le_alive (run init_fiber es).fibers
  simp only [MAX_FIBER] at h3
  omega

/-- C1: in every state reachable from `init_fiber` by submissions, idle-hook
calls, coroutine steps (and assignments to the spare ceiling), the alive count
`s_fibers` is at least 0 and at most 10000. -/
theorem C1_alive_count_within_hard_ceiling (es : List Event) :
    0 ≤ (run init_fiber es).s_fibers ∧ (run init_fiber es).s_fibers ≤ 10000 := by
  have h := countInv_run es init_fiber countInv_init
  have h1 := h.fibers_eq
  have h3 := h.fibers_le
  simp only [MAX_FIBER] at h3
  omega

/-- C2, as stated, fails: two coroutines park under the ceiling 256, the
ceiling is then set to 1; every alive coroutine is parked, yet the idle count
is 2. -/
theorem C2_idle_exceeds_lowered_ceiling :
    (run init_fiber loweredCeiling).fibers.all FiberPc.steady = true ∧
    (run init_fiber loweredCeiling).g_spareFibers = 1 ∧
    (run init_fiber loweredCeiling).s_idleFibers = 2 ∧
    ¬ (run init_fiber loweredCeiling).s_idleFibers
        ≤ (run init_fiber loweredCeiling).g_spareFibers := by
  decide

/-- C2, amended: in every reachable steady state (each alive coroutine is
running a task or parked in the blocking pop) the idle count is at most the
current spare ceiling, provided the ceiling is not negative and, since some
earlier moment at which no coroutine was in the blocking pop (for instance
since `init_fiber`), it has never been higher than it is now. -/
theorem C2_idle_le_ceiling_when_never_lowered (es0 es : List Event)
    (hnone : (run init_fiber es0).fibers.countP FiberPc.inGet = 0)
    (hpos : 0 ≤ (run init_fiber (es0 ++ es)).g_spareFibers)
    (hthen : (run init_fiber es0).g_spareFibers ≤ (run init_fiber (es0 ++ es)).g_spareFibers)
    (hset : es.all (Event.spareLe (run init_fiber (es0 ++ es)).g_spareFibers) = true)
    (hsteady : (run init_fiber (es0 ++ es)).fibers.all FiberPc.steady = true) :
    (run init_fiber (es0 ++ es)).s_idleFibers ≤ (run init_fiber (es0 ++ es)).g_spareFibers := by
  have hc0 := countInv_run es0 init_fiber countInv_init
  have hc := countInv_run (es0 ++ es) init_fiber countInv_init
  have hs0 : SpareInv (run init_fiber (es0 ++ es)).g_spareFibers (run init_fiber es0) :=
    ⟨by rw [hnone]; exact hpos, hthen⟩
  have hs := spareInv_run _ es (run init_fiber es0) hc0 hset hs0
  rw [← run_append] at hs
  have h1 := hc.idle_eq
  have h2 := hs.inGet_le
  have h3 := steady_idle_eq_inGet _ hsteady
  omega

/-- C2, amended, at a concrete run: the ceiling is set to 100 before any
coroutine exists, then a coroutine runs one task and parks. -/
theorem C2_idle_le_ceiling_witness :
    (run init_fiber (configure100 ++ oneTaskParks)).s_idleFibers = 1 ∧
    (run init_fiber (configure100 ++ oneTaskParks)).s_idleFibers
      ≤ (run init_fiber (configure100 ++ oneTaskParks)).g_spareFibers :=
  ⟨by decide,
   C2_idle_le_ceiling_when_never_lowered configure100 oneTaskParks (by decide) (by decide)
     (by decide) (by decide) (by decide)⟩

theorem submits_heap_length (subs : List Event) (s : Sched)
    (h : subs.all Event.isSubmit = true) :
    (run s subs).heap.length = s.heap.length + subs.length := by
  induction subs generalizing s with
  | nil => simp [run]
  | cons e es ih =>
    simp only [List.all_cons, Bool.and_eq_true] at h
    have h2 := ih (step s e) h.2
    simp only [run, List.foldl_cons] at h2 ⊢
    rw [h2]
    cases e with
    | sync t => simp [step, sync]; omega
    | start cur t => simp [step, start]; omega
    | idle => simp [Event.isSubmit] at h
    | fiber i => simp [Event.isSubmit] at h
    | setSpare v => simp [Event.isSubmit] at h

theorem submits_frame (subs : List Event) (s : Sched)
    (h : subs.all Event.isSubmit = true) :
    (run s subs).fibers = s.fibers ∧ (run s subs).g_spareFibers = s.g_spareFibers := by
  induction subs generalizing s with
  | nil => simp [run]
  | cons e es ih =>
    simp only [List.all_cons, Bool.and_eq_true] at h
    have h2 := ih (step s e) h.2
    simp only [run, List.foldl_cons] at h2 ⊢
    rw [h2.1, h2.2]
    cases e with
    | sync t => simp [step, sync]
    | start cur t => simp [step, start]
    | idle => simp [Event.isSubmit] at h
    | fiber i => simp [Event.isSubmit] at h
    | setSpare v => simp [Event.isSubmit] at h

theorem schedStep_spareLe (m : Int) (es : List Event)
    (h : es.all Event.isSchedStep = true) : es.all (Event.spareLe m) = true := by
  induction es with
  | nil => rfl
  | cons e es ih =>
    simp only [List.all_cons, Bool.and_eq_true] at h ⊢
    refine ⟨?_, ih h.2⟩
    cases e <;> simp [Event.isSchedStep, Event.spareLe] at h ⊢

/-- C3: with the spare ceiling `S` and `S + 5` tasks submitted to a fresh
scheduler, every state reached by idle-hook calls and coroutine steps (in any
interleaving, in particular the one where each callable returns at once) has
at most `S + 5` alive coroutines; and when all tasks have completed, the queue
is empty and every alive coroutine is parked, at most `S` are alive. -/
theorem C3_burst_peak_and_settle (S : Nat) (subs es : List Event)
    (hsub : subs.all Event.isSubmit = true) (hlen : subs.length = S + 5)
    (hes : es.all Event.isSchedStep = true) :
    (run (burstStart S subs) es).s_fibers ≤ S + 5 ∧
    (allDone (run (burstStart S subs) es) = true →
      (run (burstStart S subs) es).g_jobs = [] →
      (run (burstStart S subs) es).fibers.all FiberPc.parkedOrGone = true →
      (run (burstStart S subs) es).s_fibers ≤ S) := by
  have hc0 : CountInv (step init_fiber (Event.setSpare S)) :=
    countInv_step _ _ countInv_init
  have hc1 : CountInv (burstStart S subs) := countInv_run subs _ hc0
  have ht0 : TaskInv (step init_fiber (Event.setSpare S)) := by
    constructor <;> simp [step, set_spareFibers, init_fiber]
  have ht1 : TaskInv (burstStart S subs) := taskInv_run subs _ hc0 ht0
  have hfr := submits_frame subs (step init_fiber (Event.setSpare S)) hsub
  have hhl := submits_heap_length subs (step init_fiber (Event.setSpare S)) hsub
  have hs1 : SpareInv S (burstStart S subs) := by
    constructor
    · show ((List.countP FiberPc.inGet (run _ subs).fibers : Nat) : Int) ≤ S
      rw [hfr.1]
      simp [step, set_spareFibers, init_fiber]
    · show (run _ subs).g_spareFibers ≤ S
      rw [hfr.2]
      simp [step, set_spareFibers]
  have hc := countInv_run es _ hc1
  have ht := taskInv_run es _ hc1 ht1
  have hs := spareInv_run S es _ hc1 (schedStep_spareLe S es hes) hs1
  have hf := schedSteps_frame es (burstStart S subs) hes
  have hheap : (run (burstStart S subs) es).heap.length = S + 5 := by
    rw [hf.1]
    show (run _ subs).heap.length = S + 5
    rw [hhl, hlen]
    simp [step, set_spareFibers, init_fiber]
  have h1 := hc.fibers_eq
  have h2 := ht.alive_le
  refine ⟨by omega, ?_⟩
  intro _ _ hpark
  have h3 := parked_alive_eq_inGet _ hpark
  have h4 := hs.inGet_le
  omega

/-- C3 at a concrete run: ceiling 1, six tasks, one coroutine runs them all
and parks. -/
theorem C3_burst_witness :
    (allDone (run (burstStart 1 sixTasks) oneWorkerDrains) = true ∧
     (run (burstStart 1 sixTasks) oneWorkerDrains).g_jobs = [] ∧
     (run (burstStart 1 sixTasks) oneWorkerDrains).fibers = [FiberPc.parked]) ∧
    (run (burstStart 1 sixTasks) oneWorkerDrains).s_fibers ≤ 1 :=
  ⟨by decide,
   (C3_burst_peak_and_settle 1 sixTasks oneWorkerDrains (by decide) (by decide) (by decide)).2
     (by decide) (by decide) (by decide)⟩

/-! ## The coroutine pool: one task, the idle hook, the shrink test -/

/-- C4, as stated, fails in one point: after the scenario `join` on the task
does not return 42; it returns the result code 0. -/
theorem C4_join_does_not_return_42 :
    after42.heap.map join = [some 0] ∧ after42.heap.map join ≠ [some 42] := by
  decide

/-- C4, amended: from the state left by `init_fiber` (0 alive, 0 idle, spare
ceiling 256) with one task queued whose callable returns `v` (42 in the
scenario), one idle-hook call creates one coroutine (alive 1, idle 1); running
it calls the callable exactly once and stores `v` in the task's result slot;
the coroutine ends parked in the blocking pop, not destroyed, with alive count
1 and idle count 1; `join` on the task returns the result code 0 (success), the
value `v` being held by the result slot. -/
theorem C4_single_task_scenario (f : List Int → Option Int) (argv : List Int) (v : Int)
    (hv : f argv = some v) :
    (init_fiber.s_fibers = 0 ∧ init_fiber.s_idleFibers = 0 ∧ init_fiber.g_spareFibers = 256) ∧
    (start init_fiber none (JSFiber.fresh f argv)).g_jobs = [0] ∧
    ((onIdle (start init_fiber none (JSFiber.fresh f argv))).fibers = [FiberPc.created] ∧
     (onIdle (start init_fiber none (JSFiber.fresh f argv))).s_fibers = 1 ∧
     (onIdle (start init_fiber none (JSFiber.fresh f argv))).s_idleFibers = 1) ∧
    (fiberStep (onIdle (start init_fiber none (JSFiber.fresh f argv))) 0).fibers
      = [FiberPc.invoking 0] ∧
    ((afterOne (JSFiber.fresh f argv)).heap.map (fun t => t.calls) = [1] ∧
     (afterOne (JSFiber.fresh f argv)).heap.map (fun t => t.m_result) = [some v] ∧
     (afterOne (JSFiber.fresh f argv)).heap.map (fun t => t.m_quit) = [true] ∧
     (afterOne (JSFiber.fresh f argv)).heap.map join = [some CALL_OK]) ∧
    ((afterOne (JSFiber.fresh f argv)).fibers = [FiberPc.parked] ∧
     (afterOne (JSFiber.fresh f argv)).g_jobs = [] ∧
     (afterOne (JSFiber.fresh f argv)).s_fibers = 1 ∧
     (afterOne (JSFiber.fresh f argv)).s_idleFibers = 1) := by
  have e1 : onIdle (start init_fiber none (JSFiber.fresh f argv))
      = { g_jobs := [0], s_fibers := 1, s_idleFibers := 1, g_spareFibers := 256,
          fibers := [FiberPc.created], heap := [JSFiber.fresh f argv] } := by
    simp [onIdle, start, init_fiber, set_caller, JSFiber.fresh, MAX_FIBER, MAX_IDLE]
  have e2 : fiberStep (onIdle (start init_fiber none (JSFiber.fresh f argv))) 0
      = { g_jobs := [], s_fibers := 1, s_idleFibers := 0, g_spareFibers := 256,
          fibers := [FiberPc.invoking 0], heap := [JSFiber.fresh f argv] } := by
    rw [e1]
    simp [fiberStep, fiber_entry, fiber_loop]
  have e3 : afterOne (JSFiber.fresh f argv)
      = { g_jobs := [], s_fibers := 1, s_idleFibers := 1, g_spareFibers := 256,
          fibers := [FiberPc.parked],
          heap := [{ JSFiber.fresh f argv with calls := 1, m_result := some v,
                                               m_quit := true }] } := by
    unfold afterOne
    rw [e2]
    simp [fiberStep, fiber_finish, fiber_loop, invokeAt, js_invoke, JSFiber.fresh, hv]
  rw [e3, e2, e1]
  refine ⟨⟨rfl, rfl, rfl⟩, rfl, ⟨rfl, rfl, rfl⟩, rfl, ⟨rfl, rfl, rfl, rfl⟩, rfl, rfl, rfl, rfl⟩

/-- C4, amended, at the callable that returns 42. -/
theorem C4_single_task_witness :
    after42.heap.map (fun t => t.m_result) = [some 42] ∧
    after42.heap.map join = [some 0] ∧ after42.fibers = [FiberPc.parked] :=
  ⟨(C4_single_task_scenario (fun _ => some 42) [] 42 rfl).2.2.2.2.1.2.1,
   (C4_single_task_scenario (fun _ => some 42) [] 42 rfl).2.2.2.2.1.2.2.2,
   (C4_single_task_scenario (fun _ => some 42) [] 42 rfl).2.2.2.2.2.1⟩

/-- C5: one call of `onIdle` creates a coroutine exactly when the queue is
non-empty, the idle count is 0 and the alive count is below 10000; it then
creates exactly one coroutine and raises the alive and the idle count by 1
each, touching nothing else; otherwise the state is unchanged. -/
theorem C5_onIdle_growth_trigger (s : Sched) :
    ((onIdle s).fibers ≠ s.fibers ↔
      (s.g_jobs ≠ [] ∧ s.s_idleFibers = 0 ∧ s.s_fibers < 10000)) ∧
    ((s.g_jobs ≠ [] ∧ s.s_idleFibers = 0 ∧ s.s_fibers < 10000) →
      (onIdle s).fibers = s.fibers ++ [FiberPc.created] ∧
      (onIdle s).s_fibers = s.s_fibers + 1 ∧
      (onIdle s).s_idleFibers = s.s_idleFibers + 1 ∧
      (onIdle s).g_jobs = s.g_jobs ∧ (onIdle s).heap = s.heap ∧
      (onIdle s).g_spareFibers = s.g_spareFibers) ∧
    (¬ (s.g_jobs ≠ [] ∧ s.s_idleFibers = 0 ∧ s.s_fibers < 10000) → onIdle s = s) := by
  have hiff : (!s.g_jobs.isEmpty && s.s_idleFibers == 0 && decide (s.s_fibers < MAX_FIBER)) = true
      ↔ (s.g_jobs ≠ [] ∧ s.s_idleFibers = 0 ∧ s.s_fibers < 10000) := by
    simp only [Bool.and_eq_true, decide_eq_true_eq, Bool.not_eq_true', beq_iff_eq, MAX_FIBER,
      List.isEmpty_eq_false, and_assoc]
  by_cases hc : (s.g_jobs ≠ [] ∧ s.s_idleFibers = 0 ∧ s.s_fibers < 10000)
  · have hb := hiff.mpr hc
    have e : onIdle s = { s with s_fibers := s.s_fibers + 1
                                 s_idleFibers := s.s_idleFibers + 1
                                 fibers := s.fibers ++ [FiberPc.created] } := by
      unfold onIdle
      rw [if_pos hb]
    refine ⟨⟨fun _ => hc, fun _ => ?_⟩, fun _ => ?_, fun h => absurd hc h⟩
    · rw [e]
      simp
    · rw [e]
      exact ⟨rfl, rfl, rfl, rfl, rfl, rfl⟩
  · have hb : ¬ ((!s.g_jobs.isEmpty && s.s_idleFibers == 0 &&
        decide (s.s_fibers < MAX_FIBER)) = true) := fun h => hc (hiff.mp h)
    have e : onIdle s = s := by
      unfold onIdle
      rw [if_neg hb]
    refine ⟨⟨fun h => absurd (by rw [e]) h, fun h => absurd h hc⟩, fun h => absurd h hc,
      fun _ => e⟩

/-- C6: a coroutine at the head of the loop of `fiber_proc` that finds the
queue empty counts itself idle; if the incremented idle count exceeds
`g_spareFibers` it terminates without the blocking pop, the idle count being
what it was before the increment and the alive count lower by exactly 1;
otherwise it parks in the blocking pop with the idle count incremented, stays
there while the queue is empty, and once the pop has delivered a task the idle
count is decremented by 1 and the task is entered. -/
theorem C6_shrink_trigger (s : Sched) (i : Nat) (hq : s.g_jobs = []) :
    (s.s_idleFibers + 1 > s.g_spareFibers →
      (fiber_loop s i).s_idleFibers = s.s_idleFibers ∧
      (fiber_loop s i).s_fibers = s.s_fibers - 1 ∧
      (fiber_loop s i).fibers = s.fibers.set i FiberPc.exited ∧
      (fiber_loop s i).g_jobs = []) ∧
    (¬ s.s_idleFibers + 1 > s.g_spareFibers →
      (fiber_loop s i).s_idleFibers = s.s_idleFibers + 1 ∧
      (fiber_loop s i).s_fibers = s.s_fibers ∧
      (fiber_loop s i).fibers = s.fibers.set i FiberPc.parked) ∧
    (∀ u : Sched, u.fibers[i]? = some FiberPc.parked →
      (u.g_jobs = [] → fiberStep u i = u) ∧
      (∀ ae rest, u.g_jobs = ae :: rest →
        (fiberStep u i).fibers = u.fibers.set i (FiberPc.woken ae) ∧
        (fiberStep u i).s_idleFibers = u.s_idleFibers ∧
        (fiberStep u i).g_jobs = rest ∧
        (fiberStep (fiberStep u i) i).s_idleFibers = u.s_idleFibers - 1 ∧
        (fiberStep (fiberStep u i) i).fibers = u.fibers.set i (FiberPc.invoking ae))) := by
  refine ⟨fun h => ?_, fun h => ?_, fun u hu => ⟨fun hu0 => ?_, fun ae rest hu1 => ?_⟩⟩
  · have e : fiber_loop s i
        = { s with s_idleFibers := s.s_idleFibers + 1 - 1
                   s_fibers := s.s_fibers - 1
                   fibers := s.fibers.set i FiberPc.exited } := by
      simp only [fiber_loop, hq, h, if_true]
    rw [e]
    exact ⟨by show s.s_idleFibers + 1 - 1 = s.s_idleFibers; omega, rfl, rfl, hq⟩
  · have e : fiber_loop s i
        = { s with s_idleFibers := s.s_idleFibers + 1
                   fibers := s.fibers.set i FiberPc.parked } := by
      simp only [fiber_loop, hq, h, if_false]
    rw [e]
    exact ⟨rfl, rfl, rfl⟩
  · simp only [fiberStep, hu, fiber_get, hu0]
  · have e1 : fiberStep u i
        = { u with g_jobs := rest, fibers := u.fibers.set i (FiberPc.woken ae) } := by
      simp only [fiberStep, hu, fiber_get, hu1]
    have hlt : i < u.fibers.length := by
      rcases Nat.lt_or_ge i u.fibers.length with h | h
      · exact h
      · rw [List.getElem?_eq_none h] at hu
        cases hu
    have e2 : ({ u with g_jobs := rest,
                        fibers := u.fibers.set i (FiberPc.woken ae) } : Sched).fibers[i]?
        = some (FiberPc.woken ae) := by
      simp [List.getElem?_set, hlt]
    have e3 : fiberStep { u with g_jobs := rest,
                                 fibers := u.fibers.set i (FiberPc.woken ae) } i
        = { u with g_jobs := rest, s_idleFibers := u.s_idleFibers - 1
                   fibers := (u.fibers.set i (FiberPc.woken ae)).set i (FiberPc.invoking ae) } := by
      simp only [fiberStep, e2, fiber_resume]
    rw [e1, e3]
    exact ⟨rfl, rfl, rfl, rfl, List.set_set _ _ _ _⟩

/-- C6 at a concrete state: with ceiling 1 the coroutine terminates, with
ceiling 2 it parks. -/
theorem C6_shrink_witness :
    ((fiber_loop (lastTaskRunning 1) 0).s_idleFibers = 1 ∧
     (fiber_loop (lastTaskRunning 1) 0).s_fibers = 1) ∧
    ((fiber_loop (lastTaskRunning 2) 0).s_idleFibers = 2 ∧
     (fiber_loop (lastTaskRunning 2) 0).s_fibers = 2) :=
  ⟨⟨((C6_shrink_trigger (lastTaskRunning 1) 0 rfl).1 (by decide)).1.trans (by decide),
    ((C6_shrink_trigger (lastTaskRunning 1) 0 rfl).1 (by decide)).2.1.trans (by decide)⟩,
   ⟨((C6_shrink_trigger (lastTaskRunning 2) 0 rfl).2.1 (by decide)).1.trans (by decide),
    ((C6_shrink_trigger (lastTaskRunning 2) 0 rfl).2.1 (by decide)).2.1.trans (by decide)⟩⟩

theorem nonFiber_frame (s : Sched) (e : Event) (hf : e.isFiber = false)
    (hfull : s.s_fibers = MAX_FIBER) :
    s.g_jobs <+: (step s e).g_jobs ∧ (step s e).fibers = s.fibers ∧
    (step s e).s_fibers = s.s_fibers ∧ (step s e).s_idleFibers = s.s_idleFibers := by
  cases e with
  | sync t => exact ⟨List.prefix_append _ _, rfl, rfl, rfl⟩
  | start cur t => exact ⟨List.prefix_append _ _, rfl, rfl, rfl⟩
  | setSpare v => exact ⟨List.prefix_refl _, rfl, rfl, rfl⟩
  | fiber i => simp [Event.isFiber] at hf
  | idle =>
    have e : onIdle s = s := by
      unfold onIdle
      rw [if_neg]
      simp [hfull]
    show s.g_jobs <+: (onIdle s).g_jobs ∧ (onIdle s).fibers = s.fibers ∧
      (onIdle s).s_fibers = s.s_fibers ∧ (onIdle s).s_idleFibers = s.s_idleFibers
    rw [e]
    exact ⟨List.prefix_refl _, rfl, rfl, rfl⟩

theorem nonFiber_run_frame (es : List Event) (s : Sched)
    (hf : es.all (fun e => !e.isFiber) = true) (hfull : s.s_fibers = MAX_FIBER) :
    s.g_jobs <+: (run s es).g_jobs ∧ (run s es).fibers = s.fibers ∧
    (run s es).s_fibers = s.s_fibers ∧ (run s es).s_idleFibers = s.s_idleFibers := by
  induction es generalizing s with
  | nil => exact ⟨List.prefix_refl _, rfl, rfl, rfl⟩
  | cons e es ih =>
    simp only [List.all_cons, Bool.and_eq_true, Bool.not_eq_true'] at hf
    have h1 := nonFiber_frame s e hf.1 hfull
    have h2 := ih (step s e) (by simpa using hf.2) (h1.2.2.1.trans hfull)
    exact ⟨h1.1.trans h2.1, h2.2.1.trans h1.2.1, h2.2.2.1.trans h1.2.2.1,
      h2.2.2.2.trans h1.2.2.2⟩

/-- C7: with the alive count at the hard ceiling 10000, `AsyncEvent::sync` and
`FiberBase::start` (both without a result code) still append the task to the
job queue; `onIdle` then changes nothing: no coroutine is created, the queue,
the alive count and the idle count stay as they are; and through any further
submissions, idle-hook calls and ceiling changes the task stays in the queue
with the same tasks ahead of it, until a coroutine step pops it. -/
theorem C7_hard_ceiling_backpressure (s : Sched) (t : JSFiber) (cur : Option Nat)
    (es : List Event) (hfull : s.s_fibers = MAX_FIBER)
    (hes : es.all (fun e => !e.isFiber) = true) :
    ((sync s t).g_jobs = s.g_jobs ++ [s.heap.length] ∧ (sync s t).heap[s.heap.length]? = some t ∧
     (start s cur t).g_jobs = s.g_jobs ++ [s.heap.length] ∧
     (start s cur t).heap[s.heap.length]? = some (set_caller s.heap t cur)) ∧
    (onIdle (sync s t) = sync s t ∧ onIdle (start s cur t) = start s cur t) ∧
    ((s.g_jobs ++ [s.heap.length] <+: (run (sync s t) es).g_jobs ∧
      (run (sync s t) es).fibers = s.fibers ∧
      (run (sync s t) es).s_fibers = s.s_fibers ∧
      (run (sync s t) es).s_idleFibers = s.s_idleFibers) ∧
     (s.g_jobs ++ [s.heap.length] <+: (run (start s cur t) es).g_jobs ∧
      (run (start s cur t) es).fibers = s.fibers ∧
      (run (start s cur t) es).s_fibers = s.s_fibers ∧
      (run (start s cur t) es).s_idleFibers = s.s_idleFibers)) := by
  have hidle : ∀ u : Sched, u.s_fibers = MAX_FIBER → onIdle u = u := by
    intro u hu
    unfold onIdle
    rw [if_neg]
    simp [hu]
  refine ⟨⟨rfl, by simp [sync], rfl, by simp [start]⟩,
    ⟨hidle _ hfull, hidle _ hfull⟩,
    nonFiber_run_frame es (sync s t) hes hfull,
    nonFiber_run_frame es (start s cur t) hes hfull⟩

/-- C7 at a concrete state with 10000 coroutines, each inside a task. -/
theorem C7_hard_ceiling_witness :
    fullSched.s_fibers = 10000 ∧
    onIdle (sync fullSched task42) = sync fullSched task42 ∧
    (onIdle (sync fullSched task42)).g_jobs = [] ++ [fullSched.heap.length] :=
  ⟨rfl, (C7_hard_ceiling_backpressure fullSched task42 none [] rfl rfl).2.1.1,
   ((C7_hard_ceiling_backpressure fullSched task42 none [] rfl rfl).2.1.1).symm ▸ rfl⟩

/-! ## The background pool -/

theorem acInGet_le_idle (l : List AcPc) : l.countP AcPc.inGet ≤ l.countP AcPc.idle := by
  induction l with
  | nil => simp
  | cons x xs ih =>
    cases x <;> simp [List.countP_cons, AcPc.inGet, AcPc.idle] <;> omega

theorem acInv_step (limit : Int) (k : Nat) (s : AcPool) (i : Nat) (h : AcInv limit k s) :
    AcInv limit k (acStep s i) := by
  obtain ⟨h1, h2, h3, h4⟩ := h
  unfold acStep
  simp only [atomic_inc, atomic_dec]
  split
  · rename_i hpc
    have ci := fun b nb hb => countP_set_num AcPc.idle s.threads i _ b 0 nb hpc rfl hb
    have cg := fun b nb hb => countP_set_num AcPc.inGet s.threads i _ b 0 nb hpc rfl hb
    have ca := fun b nb hb => countP_set_num AcPc.alive s.threads i _ b 1 nb hpc rfl hb
    have cp := fun b nb hb => countP_set_num AcPc.preSpawn s.threads i _ b 0 nb hpc rfl hb
    split
    · have := ci AcPc.shrinking 1 rfl
      have := cg AcPc.shrinking 0 rfl
      have := ca AcPc.shrinking 1 rfl
      have := cp AcPc.shrinking 0 rfl
      refine ⟨?_, ?_, h3, ?_⟩ <;> dsimp only <;> omega
    · rename_i hv
      rw [h3] at hv
      have := ci AcPc.waiting 1 rfl
      have := cg AcPc.waiting 1 rfl
      have := ca AcPc.waiting 1 rfl
      have := cp AcPc.waiting 0 rfl
      have := acInGet_le_idle (s.threads.set i AcPc.waiting)
      refine ⟨?_, ?_, h3, ?_⟩ <;> dsimp only <;> omega
  · rename_i hpc
    have := countP_set_num AcPc.idle s.threads i _ AcPc.exited 1 0 hpc rfl rfl
    have := countP_set_num AcPc.inGet s.threads i _ AcPc.exited 0 0 hpc rfl rfl
    have := countP_set_num AcPc.alive s.threads i _ AcPc.exited 1 0 hpc rfl rfl
    have := countP_set_num AcPc.preSpawn s.threads i _ AcPc.exited 0 0 hpc rfl rfl
    refine ⟨?_, ?_, h3, ?_⟩ <;> dsimp only <;> omega
  · rename_i hpc
    split
    · rename_i p rest hq
      rw [hq] at h4
      simp only [List.length_cons] at h4
      have := countP_set_num AcPc.idle s.threads i _ (AcPc.popped p) 1 1 hpc rfl rfl
      have := countP_set_num AcPc.inGet s.threads i _ (AcPc.popped p) 1 1 hpc rfl rfl
      have := countP_set_num AcPc.alive s.threads i _ (AcPc.popped p) 1 1 hpc rfl rfl
      have := countP_set_num AcPc.preSpawn s.threads i _ (AcPc.popped p) 0 1 hpc rfl rfl
      refine ⟨?_, ?_, h3, ?_⟩ <;> dsimp only <;> omega
    · exact ⟨h1, h2, h3, h4⟩
  · rename_i p hpc
    have ci := fun b nb hb => countP_set_num AcPc.idle s.threads i _ b 1 nb hpc rfl hb
    have cg := fun b nb hb => countP_set_num AcPc.inGet s.threads i _ b 1 nb hpc rfl hb
    have ca := fun b nb hb => countP_set_num AcPc.alive s.threads i _ b 1 nb hpc rfl hb
    have cp := fun b nb hb => countP_set_num AcPc.preSpawn s.threads i _ b 1 nb hpc rfl hb
    split
    · have := ci (AcPc.spawning p) 0 rfl
      have := cg (AcPc.spawning p) 0 rfl
      have := ca (AcPc.spawning p) 1 rfl
      have := cp (AcPc.spawning p) 1 rfl
      refine ⟨?_, ?_, h3, ?_⟩ <;> dsimp only <;> omega
    · have := ci (AcPc.invoking p) 0 rfl
      have := cg (AcPc.invoking p) 0 rfl
      have := ca (AcPc.invoking p) 1 rfl
      have := cp (AcPc.invoking p) 0 rfl
      refine ⟨?_, ?_, h3, ?_⟩ <;> dsimp only <;> omega
  · rename_i p hpc
    have := countP_set_num AcPc.idle s.threads i _ (AcPc.invoking p) 0 0 hpc rfl rfl
    have := countP_set_num AcPc.inGet s.threads i _ (AcPc.invoking p) 0 0 hpc rfl rfl
    have := countP_set_num AcPc.alive s.threads i _ (AcPc.invoking p) 1 1 hpc rfl rfl
    have := countP_set_num AcPc.preSpawn s.threads i _ (AcPc.invoking p) 1 0 hpc rfl rfl
    have e1 : AcPc.idle AcPc.top = false := rfl
    have e2 : AcPc.inGet AcPc.top = false := rfl
    have e3 : AcPc.alive AcPc.top = true := rfl
    have e4 : AcPc.preSpawn AcPc.top = false := rfl
    refine ⟨?_, ?_, h3, ?_⟩ <;>
      simp only [List.countP_append, List.countP_cons, List.countP_nil, e1, e2, e3, e4, if_true,
        Bool.false_eq_true, if_false] <;> omega
  · rename_i p hpc
    have := countP_set_num AcPc.idle s.threads i _ AcPc.top 0 0 hpc rfl rfl
    have := countP_set_num AcPc.inGet s.threads i _ AcPc.top 0 0 hpc rfl rfl
    have := countP_set_num AcPc.alive s.threads i _ AcPc.top 1 1 hpc rfl rfl
    have := countP_set_num AcPc.preSpawn s.threads i _ AcPc.top 0 0 hpc rfl rfl
    refine ⟨?_, ?_, h3, ?_⟩ <;> dsimp only <;> omega
  · exact ⟨h1, h2, h3, h4⟩
  · exact ⟨h1, h2, h3, h4⟩

theorem acInv_run (limit : Int) (es : List AcEvent) (k : Nat) (s : AcPool)
    (h : AcInv limit k s) : AcInv limit (k + es.countP AcEvent.isAsync) (acRun s es) := by
  induction es generalizing k s with
  | nil => simpa [acRun] using h
  | cons e es ih =>
    cases e with
    | async p =>
      have h' : AcInv limit (k + 1) (async s p) := by
        obtain ⟨h1, h2, h3, h4⟩ := h
        refine ⟨h1, h2, h3, ?_⟩
        simp only [async, List.length_append, List.length_singleton]
        omega
      have := ih (k + 1) (async s p) h'
      simp only [acRun, List.foldl_cons, acEventStep, List.countP_cons, AcEvent.isAsync,
        if_true] at this ⊢
      have e : k + (List.countP AcEvent.isAsync es + 1) = k + 1 + List.countP AcEvent.isAsync es := by
        omega
      rw [e]
      exact this
    | worker i =>
      have := ih k (acStep s i) (acInv_step limit k s i h)
      simpa [acRun, acEventStep, List.countP_cons, AcEvent.isAsync] using this

theorem wrap32_small (x : Int) (h0 : 0 ≤ x) (h1 : x < 2147483648) : wrap32 x = x := by
  unfold wrap32
  omega

theorem init_acThread_threads (detected : Int) (h : detected ≤ 238609294) :
    (init_acThread detected).s_threads = 3 * max detected 3 ∧
    shrinkLimit (init_acThread detected) = 9 * max detected 3 := by
  have e : (init_acThread detected).s_threads
      = wrap32 ((if detected < 3 then 3 else detected) * 3) := rfl
  have e2 : (if detected < 3 then (3 : Int) else detected) = max detected 3 := by
    split <;> omega
  rw [e2] at e
  have hm : (3 : Int) ≤ max detected 3 := le_max_right _ _
  have hm2 : max detected 3 ≤ 238609294 := max_le h (by norm_num)
  rw [wrap32_small _ (by omega) (by omega)] at e
  refine ⟨by rw [e]; ring, ?_⟩
  unfold shrinkLimit
  rw [e, wrap32_small _ (by omega) (by omega)]
  ring

theorem acInv_init (detected : Int) (h : detected ≤ 238609294) :
    AcInv (9 * max detected 3) 0 (init_acThread detected) := by
  have hm : (3 : Int) ≤ max detected 3 := le_max_right _ _
  refine ⟨?_, ?_, (init_acThread_threads detected h).2, ?_⟩
  · simp [init_acThread, AcPc.idle]
  · have e : (List.countP AcPc.inGet (init_acThread detected).threads) = 0 := rfl
    rw [e]
    simp only [Nat.cast_zero]
    omega
  · simp [init_acThread, AcPc.alive, AcPc.preSpawn]

theorem getElem?_append_length {α : Type} (l : List α) (x : α) (r : List α) :
    (l ++ x :: r)[l.length]? = some x := by
  induction l with
  | nil => simp
  | cons a l ih => simpa using ih

theorem set_append_length {α : Type} (l : List α) (x y : α) (r : List α) :
    (l ++ x :: r).set l.length y = l ++ y :: r := by
  induction l with
  | nil => rfl
  | cons a l ih => simp

theorem alive_map_invoking (l : List Nat) :
    (l.map AcPc.invoking).countP AcPc.alive = l.length := by
  induction l with
  | nil => rfl
  | cons a l ih => simp [List.countP_cons, AcPc.alive, ih]

theorem acRun_append (s : AcPool) (es fs : List AcEvent) :
    acRun s (es ++ fs) = acRun (acRun s es) fs := by
  simp [acRun, List.foldl_append]

theorem burstRound_effect (l : List AcPc) (inv : List Nat) :
    acRun { s_acPool := [], s_threads := 9, s_idleThreads := 1,
            threads := l ++ [AcPc.waiting], invoked := inv } (burstRound l.length)
      = { s_acPool := [], s_threads := 9, s_idleThreads := 1,
          threads := (l ++ [AcPc.invoking l.length]) ++ [AcPc.waiting],
          invoked := inv ++ [l.length] } := by
  have g1 := getElem?_append_length l AcPc.waiting []
  have g2 := getElem?_append_length l (AcPc.popped l.length) []
  have g3 := getElem?_append_length l (AcPc.spawning l.length) []
  have g4 := getElem?_append_length (l ++ [AcPc.invoking l.length]) AcPc.top []
  have s1 := set_append_length l AcPc.waiting (AcPc.popped l.length) []
  have s2 := set_append_length l (AcPc.popped l.length) (AcPc.spawning l.length) []
  have s3 := set_append_length l (AcPc.spawning l.length) (AcPc.invoking l.length) []
  have s4 := set_append_length (l ++ [AcPc.invoking l.length]) AcPc.top AcPc.waiting []
  have hl : (l ++ [AcPc.invoking l.length]).length = l.length + 1 := by simp
  rw [hl] at g4 s4
  have hlim : wrap32 ((9 : Int) * 3) = 27 := by decide
  simp only [burstRound, acRun, List.foldl_cons, List.foldl_nil, acEventStep, async,
    List.nil_append]
  simp only [acStep, g1, s1]
  simp only [acStep, g2, s2, atomic_dec, sub_self, beq_self_eq_true, if_true]
  simp only [acStep, g3, s3]
  simp only [acStep, g4, s4, atomic_inc, shrinkLimit, hlim]
  norm_num

theorem burstTrace_effect (n : Nat) : acRun (init_acThread 0) (burstTrace n) = burstState n := by
  induction n with
  | zero => decide
  | succ n ih =>
    have h := burstRound_effect ((List.range n).map AcPc.invoking) (List.range n)
    simp only [List.length_map, List.length_range] at h
    rw [burstTrace, acRun_append, ih]
    simp only [burstState, List.range_succ, List.map_append, List.map_cons, List.map_nil]
    exact h

/-- C8, as stated, fails: no bound that depends only on the worker ceiling
limits the number of alive worker threads.  With the ceiling 9, `n` tasks that
stay in their `invoke()` leave `n + 1` workers alive. -/
theorem C8_pool_not_bounded_by_ceiling :
    ¬ ∃ B : Int → Nat, ∀ (detected : Int) (es : List AcEvent),
        aliveThreads (acRun (init_acThread detected) es) ≤ B (init_acThread detected).s_threads := by
  rintro ⟨B, hB⟩
  have h := hB 0 (burstTrace (B 9))
  rw [burstTrace_effect] at h
  have e : (init_acThread 0).s_threads = 9 := by decide
  rw [e] at h
  simp only [aliveThreads, burstState, List.countP_append, alive_map_invoking,
    List.length_range, List.countP_cons, List.countP_nil, AcPc.alive] at h
  simp at h

/-- C8, amended: for every sequence of submissions and worker steps after
`init_acThread`, the workers in the blocking pop (waiting in it or just
returned from it) never number more than `3 * s_threads`, and the alive
workers never number more than 1 plus the tasks submitted so far; the alive
count has no bound in terms of the ceiling alone.  (The detected CPU count is
taken small enough for `s_threads * 3` to fit 32 bits.) -/
theorem C8_pool_bounds (detected : Int) (es : List AcEvent) (hd : detected ≤ 238609294) :
    (((acRun (init_acThread detected) es).threads.countP AcPc.inGet : Nat) : Int)
        ≤ 3 * (acRun (init_acThread detected) es).s_threads ∧
    (acRun (init_acThread detected) es).s_threads = 3 * max detected 3 ∧
    aliveThreads (acRun (init_acThread detected) es) ≤ 1 + es.countP AcEvent.isAsync := by
  have h := acInv_run _ es 0 _ (acInv_init detected hd)
  have hst : ∀ (fs : List AcEvent) (s : AcPool), (acRun s fs).s_threads = s.s_threads := by
    intro fs
    induction fs with
    | nil => intro s; rfl
    | cons e fs ih =>
      intro s
      simp only [acRun, List.foldl_cons] at ih ⊢
      rw [ih]
      cases e with
      | async p => rfl
      | worker i =>
        simp only [acEventStep, acStep]
        split <;> try rfl
        · split <;> rfl
        · split <;> rfl
        · split <;> rfl
  have h2 := h.inGet_le
  have h4 := h.alive_le
  have e := (init_acThread_threads detected hd).1
  rw [hst, e]
  refine ⟨by omega, rfl, ?_⟩
  unfold aliveThreads
  omega

/-- C8, amended, at a concrete run: 8 CPUs, two long tasks, three workers. -/
theorem C8_pool_bounds_witness :
    aliveThreads (acRun (init_acThread 8) (burstTrace 2)) = 3 ∧
    aliveThreads (acRun (init_acThread 8) (burstTrace 2))
      ≤ 1 + (burstTrace 2).countP AcEvent.isAsync :=
  ⟨by decide, (C8_pool_bounds 8 (burstTrace 2) (by decide)).2.2⟩

/-- C9: for every detected CPU count `c` (up to 715827882, where `cpus * 3`
still fits 32 bits) `init_acThread` sets `s_threads` to `3 * max(c, 3)`, which
is at least 9, and starts exactly one worker thread. -/
theorem C9_init_acThread_sizing (c : Int) (hc : c ≤ 715827882) :
    (init_acThread c).s_threads = 3 * max c 3 ∧
    9 ≤ (init_acThread c).s_threads ∧
    (init_acThread c).threads = [AcPc.top] ∧
    aliveThreads (init_acThread c) = 1 := by
  have e : (init_acThread c).s_threads = wrap32 ((if c < 3 then 3 else c) * 3) := rfl
  have e2 : (if c < 3 then (3 : Int) else c) = max c 3 := by
    split <;> omega
  rw [e2] at e
  have hm : (3 : Int) ≤ max c 3 := le_max_right _ _
  have hm2 : max c 3 ≤ 715827882 := max_le hc (by norm_num)
  rw [wrap32_small _ (by omega) (by omega)] at e
  refine ⟨by rw [e]; ring, by rw [e]; omega, rfl, rfl⟩

/-- C9 at 8 detected CPUs: the ceiling is 24. -/
theorem C9_init_acThread_witness :
    (init_acThread 8).s_threads = 24 ∧ aliveThreads (init_acThread 8) = 1 :=
  ⟨(C9_init_acThread_sizing 8 (by decide)).1.trans (by decide),
   (C9_init_acThread_sizing 8 (by decide)).2.2.2⟩

/-! ## The preemption watchdog -/

theorem preempt_poll_stalled (L : Int) (c : Nat) (hc : c ≤ 1) (p : Poll)
    (hp : p.resumeEmpty = false ∧ p.switchTimes = L) :
    preempt_poll { lastTimes := L, cnt := c } p
      = ({ lastTimes := L, cnt := ((c + 1) % 2 : Nat) }, decide ((c + 1) % 2 = 0)) := by
  obtain ⟨h1, h2⟩ := hp
  have hcc : c = 0 ∨ c = 1 := by omega
  rcases hcc with rfl | rfl <;> simp [preempt_poll, h1, h2]

theorem preempt_run_stalled (L : Int) (ps : List Poll) (c : Nat) (hc : c ≤ 1)
    (h : ∀ p ∈ ps, p.resumeEmpty = false ∧ p.switchTimes = L) :
    preempt_run { lastTimes := L, cnt := c } ps
      = ({ lastTimes := L, cnt := ((c + ps.length) % 2 : Nat) },
         (List.range ps.length).map (fun k => decide ((c + k + 1) % 2 = 0))) := by
  induction ps generalizing c with
  | nil =>
    have e : c % 2 = c := by omega
    simp [preempt_run, e]
  | cons p ps ih =>
    have hp := preempt_poll_stalled L c hc p (h p (List.mem_cons_self _ _))
    have hlt : (c + 1) % 2 ≤ 1 := by omega
    have ih' := ih ((c + 1) % 2) hlt (fun q hq => h q (List.mem_cons_of_mem _ hq))
    simp only [preempt_run, hp, ih', List.length_cons, List.range_succ_eq_map, List.map_cons,
      List.map_map]
    refine Prod.ext ?_ ?_
    · have e : ((c + 1) % 2 + ps.length) % 2 = (c + (ps.length + 1)) % 2 := by omega
      simp only [e]
    · simp only [List.cons.injEq, Nat.zero_add, Nat.add_zero, true_and]
      apply List.map_congr_left
      intro k _
      have e : (((c + 1) % 2 + k + 1) % 2 = 0) ↔ ((c + (k + 1) + 1) % 2 = 0) := by omega
      simp only [Function.comp, e]

theorem preempt_poll_not_stalled (w : Watchdog) (q : Poll) (h : Poll.stalled w q = false) :
    (preempt_poll w q).1.cnt = 0 ∧ (preempt_poll w q).2 = false := by
  unfold preempt_poll
  split
  · exact ⟨rfl, rfl⟩
  · rename_i hne
    split
    · exact ⟨rfl, rfl⟩
    · rename_i heq
      simp only [Poll.stalled, Bool.and_eq_false_imp, Bool.not_eq_true', beq_eq_false_iff_ne,
        ne_eq] at h
      simp only [bne_iff_ne, ne_eq, Decidable.not_not] at heq
      have := h (by simpa using hne)
      exact absurd heq.symm this

/-- C10, as stated, fails: the thread starts with the switch counter at 0; a
poll finds the resume list empty and the counter at 1; the five polls that
follow find the resume list non-empty and the counter still at 1, so they form
a run of polls with work pending and the counter unchanged.  The interrupts
come at the 3rd and the 5th poll of that run, not at the 2nd and the 4th: the
first poll of the run only records the counter. -/
theorem C10_interrupts_shifted_after_empty_poll :
    (preempt_run (preempt_init 0)
      [⟨true, 1⟩, ⟨false, 1⟩, ⟨false, 1⟩, ⟨false, 1⟩, ⟨false, 1⟩, ⟨false, 1⟩]).2
      = [false, false, false, true, false, true] := by
  decide

/-- C10, amended: with the watchdog running, take a run of consecutive polls
that each find the resume list non-empty and the switch counter equal to the
value `lastTimes` the watchdog holds, the run starting at the start of the
thread or right after a poll that was not of this kind.  Then an interrupt is
requested exactly at the 2nd, 4th, 6th, ... poll of the run, the stall counter
is 0 after each request and 1 after every other poll of the run.  When the
polls of a run find work pending and one and the same counter value that
differs from `lastTimes`, the first of them only records the value and the
requests come at the 3rd, 5th, ... poll.  A poll that finds the resume list
empty sets the stall counter to 0, leaves `lastTimes` alone and requests no
interrupt. -/
theorem C10_watchdog_interrupts_every_second_stalled_poll (w : Watchdog) (ps : List Poll)
    (hstart : (∃ t, w = preempt_init t) ∨
      (∃ w' q, Poll.stalled w' q = false ∧ w = (preempt_poll w' q).1))
    (hrun : ∀ p ∈ ps, Poll.stalled w p = true) :
    (preempt_run w ps).2 = (List.range ps.length).map (fun k => decide ((k + 1) % 2 = 0)) ∧
    (preempt_run w ps).1 = { lastTimes := w.lastTimes, cnt := ((ps.length % 2 : Nat) : Int) } ∧
    (∀ (v : Watchdog) (t : Int) (n : Nat), v.lastTimes ≠ t →
      (preempt_run v (List.replicate (n + 1) ⟨false, t⟩)).2
        = false :: (List.range n).map (fun k => decide ((k + 1) % 2 = 0))) ∧
    (∀ (v : Watchdog) (q : Poll), q.resumeEmpty = true →
      preempt_poll v q = ({ lastTimes := v.lastTimes, cnt := 0 }, false)) := by
  have hcnt : w.cnt = 0 := by
    rcases hstart with ⟨t, rfl⟩ | ⟨w', q, hq, rfl⟩
    · rfl
    · exact (preempt_poll_not_stalled w' q hq).1
  have hw : w = { lastTimes := w.lastTimes, cnt := ((0 : Nat) : Int) } := by
    cases w
    simp only [Nat.cast_zero] at hcnt ⊢
    rw [hcnt]
  have hrun' : ∀ p ∈ ps, p.resumeEmpty = false ∧ p.switchTimes = w.lastTimes := by
    intro p hp
    have := hrun p hp
    simpa [Poll.stalled] using this
  have h := preempt_run_stalled w.lastTimes ps 0 (by omega) hrun'
  rw [← hw] at h
  rw [h]
  refine ⟨?_, ?_, ?_, ?_⟩
  · simp only [Nat.zero_add]
  · simp only [Nat.zero_add]
  · intro v t n hne
    have hp : preempt_poll v ⟨false, t⟩ = ({ lastTimes := t, cnt := ((0 : Nat) : Int) }, false) := by
      simp [preempt_poll, hne]
    have hr := preempt_run_stalled t (List.replicate n ⟨false, t⟩) 0 (by omega)
      (fun p hp => by rw [List.eq_of_mem_replicate hp]; exact ⟨rfl, rfl⟩)
    simp only [List.replicate_succ, preempt_run, hp, hr, List.length_replicate, Nat.zero_add]
  · intro v q hq
    simp [preempt_poll, hq]

/-- C10 at a concrete run: four stalled polls after the start of the thread;
interrupts at the second and the fourth. -/
theorem C10_watchdog_witness :
    (preempt_run (preempt_init 5)
      [⟨false, 5⟩, ⟨false, 5⟩, ⟨false, 5⟩, ⟨false, 5⟩]).2 = [false, true, false, true] :=
  (C10_watchdog_interrupts_every_second_stalled_poll (preempt_init 5)
    [⟨false, 5⟩, ⟨false, 5⟩, ⟨false, 5⟩, ⟨false, 5⟩] (Or.inl ⟨5, rfl⟩) (by decide)).1.trans
    (by decide)

/-! ## Caller queries, caller propagation -/

/-- C11, as stated, fails for the sentinel: `null_fiber_data::get_caller`
returns the error code `CALL_E_INVALID_CALL`, not `CALL_RETURN_NULL`. -/
theorem C11_sentinel_get_caller_is_error :
    (get_caller Fiber_base.null_fiber_data none).1 = ResultCode.CALL_E_INVALID_CALL ∧
    (get_caller Fiber_base.null_fiber_data none).1.isError = true ∧
    (get_caller Fiber_base.null_fiber_data none).1 ≠ ResultCode.CALL_RETURN_NULL := by
  decide

/-- C11, amended: querying the caller of a `FiberBase` whose caller link is
null returns `CALL_RETURN_NULL`, which is no error code, and stores no caller;
the sentinel `null_fiber_data` answers the same query with the error code
`CALL_E_INVALID_CALL` (storing no caller either), while its `join` and
`get_traceInfo` return 0. -/
theorem C11_get_caller_without_caller (t : JSFiber) (retVal : Option Nat)
    (hnull : t.m_caller = none) :
    (get_caller (Fiber_base.fiber t) retVal = (ResultCode.CALL_RETURN_NULL, retVal) ∧
     (get_caller (Fiber_base.fiber t) retVal).1.isError = false) ∧
    (get_caller Fiber_base.null_fiber_data retVal = (ResultCode.CALL_E_INVALID_CALL, retVal) ∧
     null_join = ResultCode.ok ∧
     ∀ r : String, null_get_traceInfo r = (ResultCode.ok, r)) := by
  refine ⟨⟨?_, ?_⟩, rfl, rfl, fun _ => rfl⟩
  · simp only [get_caller, hnull]
  · simp only [get_caller, hnull, ResultCode.isError]

/-- C11, amended, at a fresh task: no caller, nothing stored. -/
theorem C11_get_caller_witness :
    get_caller (Fiber_base.fiber task42) none = (ResultCode.CALL_RETURN_NULL, none) :=
  (C11_get_caller_without_caller task42 none rfl).1.1

theorem objGet_objSet (o : List (Nat × Int)) (k : Nat) (v : Int) (j : Nat) :
    objGet (objSet o k v) j = if j = k then some v else objGet o j := by
  induction o with
  | nil =>
    by_cases h : j = k
    · simp [objSet, objGet, h]
    · have h2 : ¬ k = j := fun e => h e.symm
      simp [objSet, objGet, h, h2]
  | cons a rest ih =>
    obtain ⟨a1, a2⟩ := a
    by_cases h1 : a1 = k
    · by_cases h : j = k
      · simp [objSet, objGet, h1, h]
      · have h2 : ¬ k = j := fun e => h e.symm
        simp [objSet, objGet, h1, h, h2]
    · by_cases h : j = k
      · subst h
        simp [objSet, objGet, h1, ih]
      · by_cases h3 : a1 = j
        · simp [objSet, objGet, h1, h, h3]
        · simp [objSet, objGet, h1, h, h3, ih]

theorem objGet_copyProps (co : List (Nat × Int)) (ks : List Nat) (o : List (Nat × Int))
    (j : Nat) :
    objGet (copyProps co ks o) j
      = if j ∈ ks ∧ (objGet co j).isSome = true then objGet co j else objGet o j := by
  induction ks generalizing o with
  | nil => simp [copyProps]
  | cons k ks ih =>
    unfold copyProps
    cases hk : objGet co k with
    | none =>
      simp only [ih]
      by_cases hj : j = k
      · subst hj
        simp [hk]
      · simp [hj]
    | some v =>
      simp only [ih, objGet_objSet]
      by_cases hj : j = k
      · subst hj
        simp [hk]
      · simp [hj]

theorem objGet_isSome_iff_key (co : List (Nat × Int)) (j : Nat) :
    (objGet co j).isSome = true ↔ j ∈ co.map Prod.fst := by
  induction co with
  | nil => simp [objGet]
  | cons a rest ih =>
    obtain ⟨a1, a2⟩ := a
    by_cases h : a1 = j
    · simp [objGet, h]
    · have h2 : ¬ j = a1 := fun e => h e.symm
      simp [objGet, h, h2, ih]

/-- C17: after `set_caller(c)` with a non-null caller `c` the caller link is
`c`, under every own property key of `c`'s object the new context's object
holds the value `c`'s object holds there, and under every other key it holds
what it held before; after `set_caller` with a null caller the link is null
and the properties are unchanged.  `start` applies `set_caller` to the context
it enqueues. -/
theorem C17_set_caller_copies_properties (heap : List JSFiber) (t co : JSFiber) (c : Nat)
    (hc : heap[c]? = some co) (s : Sched) (cur : Option Nat) :
    ((set_caller heap t (some c)).m_caller = some c ∧
     (∀ k, k ∈ co.props.map Prod.fst →
        objGet (set_caller heap t (some c)).props k = objGet co.props k) ∧
     (∀ k, k ∉ co.props.map Prod.fst →
        objGet (set_caller heap t (some c)).props k = objGet t.props k)) ∧
    ((set_caller heap t none).m_caller = none ∧
     (set_caller heap t none).props = t.props) ∧
    (start s cur t).heap = s.heap ++ [set_caller s.heap t cur] := by
  have e : set_caller heap t (some c)
      = { t with m_caller := some c,
                 props := copyProps co.props (co.props.map Prod.fst) t.props } := by
    simp only [set_caller, hc]
  refine ⟨⟨?_, ?_, ?_⟩, ⟨rfl, rfl⟩, rfl⟩
  · rw [e]
  · intro k hk
    rw [e]
    simp only [objGet_copyProps]
    rw [if_pos ⟨hk, (objGet_isSome_iff_key _ _).mpr hk⟩]
  · intro k hk
    rw [e]
    simp only [objGet_copyProps]
    rw [if_neg (fun h => hk h.1)]

/-- C17 at a caller with the properties 1 and 2 and a new context with the
properties 2 and 3: property 1 is added, property 2 is overwritten, property 3
stays. -/
theorem C17_set_caller_witness :
    (set_caller [callerCtx] nestedCtx (some 0)).m_caller = some 0 ∧
    objGet (set_caller [callerCtx] nestedCtx (some 0)).props 1 = some 5 ∧
    objGet (set_caller [callerCtx] nestedCtx (some 0)).props 2 = some 7 ∧
    objGet (set_caller [callerCtx] nestedCtx (some 0)).props 3 = some 9 :=
  ⟨(C17_set_caller_copies_properties [callerCtx] nestedCtx callerCtx 0 rfl init_fiber none).1.1,
   ((C17_set_caller_copies_properties [callerCtx] nestedCtx callerCtx 0 rfl init_fiber none).1.2.1
      1 (by decide)).trans (by decide),
   ((C17_set_caller_copies_properties [callerCtx] nestedCtx callerCtx 0 rfl init_fiber none).1.2.1
      2 (by decide)).trans (by decide),
   ((C17_set_caller_copies_properties [callerCtx] nestedCtx callerCtx 0 rfl init_fiber none).1.2.2
      3 (by decide)).trans (by decide)⟩

/-! ## The watchdog's comparison, the worker loop of the background pool -/

/-- C14, as stated, fails: the thread starts with the switch counter at 0; a
poll finds the resume list empty and the counter at 1; the next poll finds the
resume list non-empty and the counter still at 1, yet the stall counter is not
incremented: the watchdog compares with the 0 it recorded, records 1 and
leaves the stall counter at 0. -/
theorem C14_no_increment_after_empty_poll :
    (preempt_poll (preempt_init 0) ⟨true, 1⟩).1 = { lastTimes := 0, cnt := 0 } ∧
    preempt_poll (preempt_poll (preempt_init 0) ⟨true, 1⟩).1 ⟨false, 1⟩
      = ({ lastTimes := 1, cnt := 0 }, false) := by
  decide

/-- C14, amended: at every poll at which the resume list is non-empty and the
switch counter has the value the watchdog recorded in `lastTimes`, the stall
counter is incremented (and, on reaching 2, reset to 0 with an interrupt
request), whatever its value; the recorded value is that of the immediately
preceding poll whenever that poll found the resume list non-empty too. -/
theorem C14_increment_when_counter_as_recorded (w : Watchdog) (q p : Poll)
    (hq : q.resumeEmpty = false) (hp : p.resumeEmpty = false) :
    (p.switchTimes = w.lastTimes →
      preempt_poll w p
        = (if w.cnt + 1 = 2 then ({ lastTimes := w.lastTimes, cnt := 0 }, true)
           else ({ lastTimes := w.lastTimes, cnt := w.cnt + 1 }, false))) ∧
    (preempt_poll w q).1.lastTimes = q.switchTimes ∧
    (p.switchTimes = q.switchTimes →
      preempt_poll (preempt_poll w q).1 p
        = (if (preempt_poll w q).1.cnt + 1 = 2
           then ({ lastTimes := q.switchTimes, cnt := 0 }, true)
           else ({ lastTimes := q.switchTimes, cnt := (preempt_poll w q).1.cnt + 1 }, false))) := by
  have key : ∀ v : Watchdog, p.switchTimes = v.lastTimes →
      preempt_poll v p
        = (if v.cnt + 1 = 2 then ({ lastTimes := v.lastTimes, cnt := 0 }, true)
           else ({ lastTimes := v.lastTimes, cnt := v.cnt + 1 }, false)) := by
    intro v hv
    by_cases h2 : v.cnt + 1 = 2
    · simp [preempt_poll, hp, hv, h2]
    · simp [preempt_poll, hp, hv, h2]
  have hl : (preempt_poll w q).1.lastTimes = q.switchTimes := by
    by_cases hne : w.lastTimes = q.switchTimes
    · by_cases h2 : w.cnt + 1 = 2
      · simp [preempt_poll, hq, hne, h2]
      · simp [preempt_poll, hq, hne, h2]
    · simp [preempt_poll, hq, hne]
  refine ⟨key w, hl, fun h => ?_⟩
  have := key (preempt_poll w q).1 (by rw [hl]; exact h)
  rw [hl] at this
  exact this

/-- C14, amended, at two polls that both find work pending and the counter at
the value of the thread's start. -/
theorem C14_increment_witness :
    preempt_poll (preempt_poll (preempt_init 7) ⟨false, 7⟩).1 ⟨false, 7⟩
      = ({ lastTimes := 7, cnt := 0 }, true) :=
  ((C14_increment_when_counter_as_recorded (preempt_init 7) ⟨false, 7⟩ ⟨false, 7⟩ rfl rfl).2.2
    rfl).trans (by decide)

theorem getElem?_set_self_of_some {α : Type} (l : List α) (i : Nat) (a b : α)
    (h : l[i]? = some a) : (l.set i b)[i]? = some b := by
  have hlt : i < l.length := by
    rcases Nat.lt_or_ge i l.length with h1 | h1
    · exact h1
    · rw [List.getElem?_eq_none h1] at h
      cases h
  simp [List.getElem?_set, hlt]

/-- C15: at the top of a loop iteration a background worker increments the
idle counter.  It terminates exactly when the incremented value is greater
than `3 * s_threads`; it then decrements the counter again, so that its two
operations together leave the counter as it was, and takes nothing from the
queue.  Otherwise it goes on to the blocking pop with the counter left
incremented.  (`s_threads * 3` is taken within 32 bits, as it is after
`init_acThread` on any real machine.) -/
theorem C15_worker_shrink_test (s : AcPool) (i : Nat) (hpc : s.threads[i]? = some AcPc.top)
    (hfit : -2147483648 ≤ s.s_threads * 3 ∧ s.s_threads * 3 < 2147483648) :
    ((acStep s i).s_idleThreads = s.s_idleThreads + 1 ∧ (acStep s i).s_acPool = s.s_acPool) ∧
    ((acStep s i).threads[i]? = some AcPc.shrinking ↔ s.s_idleThreads + 1 > 3 * s.s_threads) ∧
    (s.s_idleThreads + 1 > 3 * s.s_threads →
      (acStep (acStep s i) i).threads = s.threads.set i AcPc.exited ∧
      (acStep (acStep s i) i).s_idleThreads = s.s_idleThreads ∧
      (acStep (acStep s i) i).s_acPool = s.s_acPool ∧
      (acStep (acStep s i) i).invoked = s.invoked) ∧
    (¬ s.s_idleThreads + 1 > 3 * s.s_threads →
      (acStep s i).threads = s.threads.set i AcPc.waiting ∧
      (acStep s i).s_idleThreads = s.s_idleThreads + 1) ∧
    (∀ u : AcPool, u.threads[i]? = some AcPc.shrinking →
      (acStep u i).threads = u.threads.set i AcPc.exited ∧
      (acStep u i).s_idleThreads = u.s_idleThreads - 1 ∧
      (acStep u i).s_acPool = u.s_acPool) := by
  have hlim : shrinkLimit s = 3 * s.s_threads := by
    unfold shrinkLimit wrap32
    omega
  have hshr : ∀ u : AcPool, u.threads[i]? = some AcPc.shrinking →
      acStep u i = { u with s_idleThreads := u.s_idleThreads - 1,
                            threads := u.threads.set i AcPc.exited } := by
    intro u hu
    simp only [acStep, hu, atomic_dec]
  by_cases hgt : s.s_idleThreads + 1 > 3 * s.s_threads
  · have e1 : acStep s i = { s with s_idleThreads := s.s_idleThreads + 1,
                                    threads := s.threads.set i AcPc.shrinking } := by
      simp only [acStep, hpc, atomic_inc, hlim, hgt, if_true]
    have e2 := hshr _ (show (acStep s i).threads[i]? = some AcPc.shrinking by
      rw [e1]; exact getElem?_set_self_of_some _ _ _ _ hpc)
    refine ⟨by rw [e1]; exact ⟨rfl, rfl⟩, ?_, fun _ => ?_, fun h => absurd hgt h, ?_⟩
    · rw [e1]
      exact ⟨fun _ => hgt, fun _ => getElem?_set_self_of_some _ _ _ _ hpc⟩
    · rw [e2, e1]
      refine ⟨List.set_set _ _ _ _, ?_, rfl, rfl⟩
      show s.s_idleThreads + 1 - 1 = s.s_idleThreads
      omega
    · intro u hu
      rw [hshr u hu]
      exact ⟨rfl, rfl, rfl⟩
  · have e1 : acStep s i = { s with s_idleThreads := s.s_idleThreads + 1,
                                    threads := s.threads.set i AcPc.waiting } := by
      simp only [acStep, hpc, atomic_inc, hlim, hgt, if_false]
    refine ⟨by rw [e1]; exact ⟨rfl, rfl⟩, ?_, fun h => absurd h hgt, fun _ => ?_, ?_⟩
    · rw [e1]
      constructor
      · intro h
        have h2 : ({ s with s_idleThreads := s.s_idleThreads + 1,
                            threads := s.threads.set i AcPc.waiting } : AcPool).threads[i]?
            = some AcPc.waiting := getElem?_set_self_of_some _ _ _ _ hpc
        rw [h2] at h
        cases h
      · intro h
        exact absurd h hgt
    · rw [e1]
      exact ⟨rfl, rfl⟩
    · intro u hu
      rw [hshr u hu]
      exact ⟨rfl, rfl, rfl⟩

/-- C15 on the pool left by `init_acThread` for 4 CPUs: the first worker
passes the shrink test and waits. -/
theorem C15_worker_shrink_witness :
    (acStep (init_acThread 4) 0).threads = [AcPc.waiting] ∧
    (acStep (init_acThread 4) 0).s_idleThreads = 1 :=
  ⟨((C15_worker_shrink_test (init_acThread 4) 0 rfl (by decide)).2.2.2.1 (by decide)).1.trans
     (by decide),
   ((C15_worker_shrink_test (init_acThread 4) 0 rfl (by decide)).2.2.2.1 (by decide)).2.trans
     (by decide)⟩

/-- C16: after the blocking pop has returned task `p`, the worker decrements
the idle counter.  Exactly when the decremented value is 0 it creates one new
worker (one entry is added to the threads, at the top of its loop) before it
invokes the task.  In both cases it then invokes `p` exactly once and is back
at the top of its loop. -/
theorem C16_worker_after_pop (s : AcPool) (i p : Nat)
    (hpc : s.threads[i]? = some (AcPc.popped p)) :
    ((acStep s i).s_idleThreads = s.s_idleThreads - 1 ∧
     (acStep s i).threads.length = s.threads.length) ∧
    (s.s_idleThreads - 1 = 0 →
      (acStep s i).threads = s.threads.set i (AcPc.spawning p) ∧
      (acStep s i).invoked = s.invoked ∧
      (acStep (acStep s i) i).threads = s.threads.set i (AcPc.invoking p) ++ [AcPc.top] ∧
      (acStep (acStep s i) i).invoked = s.invoked ++ [p] ∧
      (acStep (acStep (acStep s i) i) i).threads = s.threads.set i AcPc.top ++ [AcPc.top] ∧
      (acStep (acStep (acStep s i) i) i).invoked = s.invoked ++ [p]) ∧
    (s.s_idleThreads - 1 ≠ 0 →
      (acStep s i).threads = s.threads.set i (AcPc.invoking p) ∧
      (acStep s i).invoked = s.invoked ++ [p] ∧
      (acStep (acStep s i) i).threads = s.threads.set i AcPc.top ∧
      (acStep (acStep s i) i).invoked = s.invoked ++ [p]) := by
  have hlt : i < s.threads.length := by
    rcases Nat.lt_or_ge i s.threads.length with h1 | h1
    · exact h1
    · rw [List.getElem?_eq_none h1] at hpc
      cases hpc
  have hinv : ∀ u : AcPool, u.threads[i]? = some (AcPc.invoking p) →
      acStep u i = { u with threads := u.threads.set i AcPc.top } := by
    intro u hu
    simp only [acStep, hu]
  have hspawn : ∀ u : AcPool, u.threads[i]? = some (AcPc.spawning p) →
      acStep u i = { u with threads := u.threads.set i (AcPc.invoking p) ++ [AcPc.top],
                            invoked := u.invoked ++ [p] } := by
    intro u hu
    simp only [acStep, hu]
  by_cases h0 : s.s_idleThreads - 1 = 0
  · have hb : (s.s_idleThreads - 1 == 0) = true := by simp [h0]
    have e1 : acStep s i = { s with s_idleThreads := s.s_idleThreads - 1,
                                    threads := s.threads.set i (AcPc.spawning p) } := by
      simp only [acStep, hpc, atomic_dec, hb, if_true]
    have g1 : (acStep s i).threads[i]? = some (AcPc.spawning p) := by
      rw [e1]; exact getElem?_set_self_of_some _ _ _ _ hpc
    have e2 : acStep (acStep s i) i
        = { acStep s i with
            threads := (acStep s i).threads.set i (AcPc.invoking p) ++ [AcPc.top],
            invoked := (acStep s i).invoked ++ [p] } := hspawn _ g1
    have g2 : (acStep (acStep s i) i).threads[i]? = some (AcPc.invoking p) := by
      rw [e2]
      show ((acStep s i).threads.set i (AcPc.invoking p) ++ [AcPc.top])[i]? = _
      rw [List.getElem?_append_left (by rw [List.length_set, e1]; simpa using hlt)]
      exact getElem?_set_self_of_some _ _ _ _ g1
    have e3 := hinv _ g2
    have t2 : (acStep (acStep s i) i).threads
        = s.threads.set i (AcPc.invoking p) ++ [AcPc.top] := by
      rw [e2, e1]
      show (s.threads.set i (AcPc.spawning p)).set i (AcPc.invoking p) ++ [AcPc.top] = _
      rw [List.set_set]
    refine ⟨⟨by rw [e1], by rw [e1]; simp⟩, fun _ => ?_,
      fun h => absurd h0 h⟩
    refine ⟨by rw [e1], by rw [e1], t2, by rw [e2, e1], ?_, by rw [e3, e2, e1]⟩
    rw [e3]
    show (acStep (acStep s i) i).threads.set i AcPc.top = _
    rw [t2, List.set_append_left _ _ (by simpa using hlt), List.set_set]
  · have hb : (s.s_idleThreads - 1 == 0) = false := by simp [h0]
    have e1 : acStep s i = { s with s_idleThreads := s.s_idleThreads - 1,
                                    threads := s.threads.set i (AcPc.invoking p),
                                    invoked := s.invoked ++ [p] } := by
      simp only [acStep, hpc, atomic_dec, hb]
      rfl
    have g1 : (acStep s i).threads[i]? = some (AcPc.invoking p) := by
      rw [e1]; exact getElem?_set_self_of_some _ _ _ _ hpc
    have e2 := hinv _ g1
    refine ⟨⟨by rw [e1], by rw [e1]; simp⟩, fun h => absurd h h0,
      fun _ => ?_⟩
    refine ⟨by rw [e1], by rw [e1], ?_, by rw [e2, e1]⟩
    rw [e2, e1]
    exact List.set_set _ _ _ _

/-- C16 on the first round of a burst: the only waiting worker takes task 0,
the idle counter drops to 0, a second worker is created, task 0 is invoked
once. -/
theorem C16_worker_after_pop_witness :
    (acStep (acStep (acStep (acRun (init_acThread 4) [AcEvent.worker 0, AcEvent.async 0]) 0) 0)
      0).threads = [AcPc.invoking 0, AcPc.top] ∧
    (acStep (acStep (acStep (acRun (init_acThread 4) [AcEvent.worker 0, AcEvent.async 0]) 0) 0)
      0).invoked = [0] :=
  ⟨((C16_worker_after_pop
        (acStep (acRun (init_acThread 4) [AcEvent.worker 0, AcEvent.async 0]) 0) 0 0
        (by decide)).2.1 (by decide)).2.2.1.trans (by decide),
   ((C16_worker_after_pop
        (acStep (acRun (init_acThread 4) [AcEvent.worker 0, AcEvent.async 0]) 0) 0 0
        (by decide)).2.1 (by decide)).2.2.2.1.trans (by decide)⟩

/-! ## The engine lock along a worker's trace -/

theorem workerRun_append (st : WorkerSt) (a b : List FiberEv) :
    workerRun st (a ++ b) = (workerRun st a).bind (fun st1 => workerRun st1 b) := by
  induction a generalizing st with
  | nil => rfl
  | cons e es ih =>
    simp only [List.cons_append, workerRun]
    cases workerNext st e with
    | none => rfl
    | some st1 => exact ih st1

theorem workerNext_lockSafe (st st1 : WorkerSt) (e : FiberEv) (rest : List FiberEv)
    (h : workerNext st e = some st1) :
    lockSafe st.held (e :: rest) = lockSafe st1.held rest := by
  cases st <;> cases e <;> simp only [workerNext] at h <;>
    first
    | (cases h; rfl)
    | (rename_i r; cases r <;> simp only [workerNext] at h <;> cases h <;> rfl)
    | (split at h <;> cases h <;> rfl)
    | cases h

theorem workerRun_lockSafe (tr : List FiberEv) (st st1 : WorkerSt)
    (h : workerRun st tr = some st1) : lockSafe st.held tr = true := by
  induction tr generalizing st with
  | nil => cases st <;> rfl
  | cons e es ih =>
    simp only [workerRun] at h
    cases hn : workerNext st e with
    | none => rw [hn] at h; cases h
    | some st2 =>
      rw [hn] at h
      rw [workerNext_lockSafe st st2 e es hn]
      exact ih st2 h

theorem waitEvents_protocol (n ae : Nat) (rest : List FiberEv) :
    workerRun (WorkerSt.running ae) (waitEvents n ++ rest)
      = workerRun (WorkerSt.running ae) rest := by
  induction n with
  | zero => rfl
  | succ n ih =>
    simp only [waitEvents, List.cons_append, workerRun, workerNext]
    exact ih

theorem fiber_loop_protocol (s : Sched) (i : Nat) (hi : i < s.fibers.length) :
    workerRun WorkerSt.locked (fiber_loop_events s) = some (pcSt (fiber_loop s i).fibers[i]?) := by
  unfold fiber_loop_events fiber_loop
  cases hq : s.g_jobs with
  | cons ae rest =>
    simp [workerRun, workerNext, pcSt, List.getElem?_set, hi]
  | nil =>
    by_cases hgt : s.s_idleFibers + 1 > s.g_spareFibers
    · simp [workerRun, workerNext, pcSt, List.getElem?_set, hi, hgt]
    · simp [workerRun, workerNext, pcSt, List.getElem?_set, hi, hgt]

theorem lt_length_of_getElem? {α : Type} (l : List α) (i : Nat) (a : α) (h : l[i]? = some a) :
    i < l.length := by
  rcases Nat.lt_or_ge i l.length with h1 | h1
  · exact h1
  · rw [List.getElem?_eq_none h1] at h
    cases h

theorem fiberStep_protocol (waits : Nat → Nat) (s : Sched) (i : Nat) :
    workerRun (pcSt s.fibers[i]?) (fiberStepEvents waits s i)
      = some (pcSt (fiberStep s i).fibers[i]?) := by
  cases hpc : s.fibers[i]? with
  | none => simp only [fiberStepEvents, fiberStep, hpc, workerRun]
  | some pc =>
    have hi := lt_length_of_getElem? _ _ _ hpc
    cases pc with
    | created =>
      have h := fiber_loop_protocol { s with s_idleFibers := s.s_idleFibers - 1 } i hi
      simp only [fiberStepEvents, fiberStep, hpc]
      exact h
    | invoking ae =>
      have h := fiber_loop_protocol { s with heap := invokeAt s.heap ae } i hi
      simp only [fiberStepEvents, fiberStep, hpc]
      simp only [pcSt, List.append_assoc, waitEvents_protocol, List.cons_append,
        List.nil_append, workerRun, workerNext, if_true]
      exact h
    | parked =>
      simp only [fiberStepEvents, fiberStep, hpc, fiber_get]
      cases hq : s.g_jobs with
      | cons ae rest => simp [workerRun, workerNext, pcSt, List.getElem?_set, hi]
      | nil => simp [workerRun, hpc]
    | woken ae =>
      simp only [fiberStepEvents, fiberStep, hpc, fiber_resume]
      simp [workerRun, workerNext, pcSt, List.getElem?_set, hi]
    | exited => simp only [fiberStepEvents, fiberStep, hpc, workerRun]

theorem fiberStep_other (s : Sched) (i j : Nat) (hij : j ≠ i) :
    (fiberStep s j).fibers[i]? = s.fibers[i]? := by
  unfold fiberStep
  split
  · simp only [fiber_entry, fiber_loop]
    split
    · simp [List.getElem?_set, hij]
    · split <;> simp [List.getElem?_set, hij]
  · simp only [fiber_finish, fiber_loop]
    split
    · simp [List.getElem?_set, hij]
    · split <;> simp [List.getElem?_set, hij]
  · simp only [fiber_get]
    split
    · simp [List.getElem?_set, hij]
    · rfl
  · simp [fiber_resume, List.getElem?_set, hij]
  · rfl
  · rfl

theorem pcSt_append_created (l : List FiberPc) (i : Nat) :
    pcSt (l ++ [FiberPc.created])[i]? = pcSt l[i]? := by
  rcases Nat.lt_trichotomy i l.length with h | h | h
  · rw [List.getElem?_append_left h]
  · subst h
    rw [getElem?_append_length, List.getElem?_eq_none (Nat.le_refl _)]
    rfl
  · rw [List.getElem?_eq_none (by simp; omega), List.getElem?_eq_none (by omega)]

theorem step_protocol (waits : Nat → Nat) (s : Sched) (i : Nat) (e : Event) :
    workerRun (pcSt s.fibers[i]?) (stepEvents waits i s e)
      = some (pcSt (step s e).fibers[i]?) := by
  cases e with
  | sync t => rfl
  | start cur t => rfl
  | setSpare v => rfl
  | idle =>
    simp only [stepEvents, workerRun, step, onIdle]
    split
    · rw [pcSt_append_created]
    · rfl
  | fiber j =>
    by_cases hj : j = i
    · subst hj
      simp only [stepEvents, if_true, step]
      exact fiberStep_protocol waits s j
    · simp only [stepEvents, hj, if_false, workerRun, step]
      rw [fiberStep_other s i j hj]

theorem trace_protocol (waits : Nat → Nat) (es : List Event) (s : Sched) (i : Nat) :
    workerRun (pcSt s.fibers[i]?) (traceOf waits i s es)
      = some (pcSt (run s es).fibers[i]?) := by
  induction es generalizing s with
  | nil => rfl
  | cons e es ih =>
    simp only [traceOf, workerRun_append, step_protocol, Option.some_bind]
    exact ih (step s e)

/-- C12: in the event trace of any coroutine, over any sequence of scheduler
events from `init_fiber` and whatever waits the callables perform, every call
of a task and every completion of `js_invoke` happens while the coroutine
holds the engine lock, and every entry into and return from the blocking pop
happens while it does not hold it; a coroutine to which the blocking pop has
delivered task `ae` takes the lock back (and decrements the idle count) before
it calls `ae`. -/
theorem C12_lock_held_for_invoke_not_for_pop (waits : Nat → Nat) (es : List Event) (i : Nat) :
    lockSafe false (traceOf waits i init_fiber es) = true ∧
    (∀ (s : Sched) (ae : Nat), s.fibers[i]? = some (FiberPc.woken ae) →
      fiberStepEvents waits s i = [FiberEv.acquire, FiberEv.idleDec, FiberEv.call ae]) := by
  constructor
  · have h := trace_protocol waits es init_fiber i
    exact workerRun_lockSafe _ _ _ h
  · intro s ae h
    simp only [fiberStepEvents, h]

/-- C13, as stated, fails: a coroutine that runs two queued tasks whose
callables return at once takes the lock once, finds the second task with the
non-blocking pop while it still holds the lock, and gives the lock up only
when the queue is empty; there is no release between the completion of task 0
and the fetch of task 1, and no acquire before the call of task 1. -/
theorem C13_no_release_between_tasks :
    traceOf noWaits 0 init_fiber twoTasksOneWorker
      = [FiberEv.acquire, FiberEv.idleDec,
         FiberEv.tryget (some 0), FiberEv.call 0, FiberEv.quitSet 0,
         FiberEv.tryget (some 1), FiberEv.call 1, FiberEv.quitSet 1,
         FiberEv.tryget none, FiberEv.idleInc, FiberEv.release, FiberEv.popBegin] ∧
    (traceOf noWaits 0 init_fiber twoTasksOneWorker).count FiberEv.acquire = 1 ∧
    (traceOf noWaits 0 init_fiber twoTasksOneWorker).count FiberEv.release = 1 := by
  decide

/-- C13, amended: whatever waits the callables perform, the event trace of
every coroutine follows the protocol `workerNext`: each task the coroutine
obtains, from the non-blocking or the blocking pop, is called exactly once and
then has its completion signal set, in this order, and the coroutine holds the
engine lock at the call and at the completion, having taken it at the entry of
`fiber_proc` or after the blocking pop that delivered the task.  `fiber_proc`
does not give the lock up after a task: a coroutine that completes task `ae`
and finds task `b` with the non-blocking pop goes from the completion of `ae`
to the call of `b` without a release.  The call applies the callable to the
captured arguments, keeps a returned value and sets the signal. -/
theorem C13_worker_protocol (waits : Nat → Nat) (es : List Event) (i : Nat) (t : JSFiber) :
    workerRun WorkerSt.fresh (traceOf waits i init_fiber es)
      = some (pcSt (run init_fiber es).fibers[i]?) ∧
    (∀ (s : Sched) (ae b : Nat) (rest : JobQueue),
      s.fibers[i]? = some (FiberPc.invoking ae) → s.g_jobs = b :: rest →
      fiberStepEvents waits s i
        = waitEvents (waits ae)
            ++ [FiberEv.quitSet ae, FiberEv.tryget (some b), FiberEv.call b]) ∧
    ((js_invoke t).calls = t.calls + 1 ∧ (js_invoke t).m_quit = true ∧
     (js_invoke t).m_result = (match t.m_func t.m_argv with
        | some v => some v
        | none => t.m_result)) := by
  refine ⟨trace_protocol waits es init_fiber i, ?_, rfl, rfl, rfl⟩
  intro s ae b rest hpc hq
  simp only [fiberStepEvents, hpc, fiber_loop_events, hq, List.append_assoc, List.cons_append,
    List.nil_append]

/-! ## Hex decoding stays inside its buffer -/

theorem hexDecodeLoop_in_bounds (h : HexHelpers) (n : Nat)
    (hprog : ∀ d, (h.utf8_getchar d).1 ≠ 0 → (h.utf8_getchar d).2.length < d.length)
    (fuel : Nat) (data : List Nat) (pos : Nat) (strBuf writes : List Nat)
    (hfuel : data.length < fuel) (hpos : 2 * pos + data.length ≤ n)
    (hbuf : strBuf.length = n / 2) (hw : ∀ w ∈ writes, w < n / 2) :
    ∃ out, hexDecodeLoop h fuel data pos strBuf writes = some out ∧
      out.strBuf.length = n / 2 ∧ ∀ w ∈ out.writes, w < n / 2 := by
  induction fuel generalizing data pos strBuf writes with
  | zero => omega
  | succ fuel ih =>
    unfold hexDecodeLoop
    by_cases h1 : (h.utf8_getchar data).1 = 0
    · simp only [h1, if_true]
      exact ⟨_, rfl, hbuf, hw⟩
    · have p1 := hprog data h1
      simp only [h1, if_false]
      by_cases hx : h.qisxdigit (h.utf8_getchar data).1 = true
      · simp only [hx, if_true]
        by_cases h2 : (h.utf8_getchar (h.utf8_getchar data).2).1 = 0
        · simp only [h2, if_true]
          exact ⟨_, rfl, hbuf, hw⟩
        · have p2 := hprog _ h2
          simp only [h2, if_false]
          apply ih
          · omega
          · omega
          · rw [List.length_set]
            exact hbuf
          · intro w hwm
            rcases List.mem_append.mp hwm with hm | hm
            · exact hw w hm
            · simp only [List.mem_singleton] at hm
              subst hm
              omega
      · simp only [hx]
        apply ih
        · omega
        · omega
        · exact hbuf
        · exact hw

/-- C19: for every input of `n` bytes before its terminating NUL (`n` within
`int32_t`), whatever characters it holds, `hexDecode` returns, its buffer has
`n / 2` bytes, and every index at which it writes is below `n / 2`.  The only
thing used about `utf8_getchar` is that a character it returns has taken at
least one byte of the input. -/
theorem C19_hexDecode_writes_in_bounds (h : HexHelpers) (data : List Nat)
    (hlen : data.length < 2147483648)
    (hprog : ∀ d, (h.utf8_getchar d).1 ≠ 0 → (h.utf8_getchar d).2.length < d.length) :
    ∃ out, hexDecode h data = some out ∧ out.strBuf.length = data.length / 2 ∧
      ∀ w ∈ out.writes, w < data.length / 2 := by
  have hw : wrap32 (data.length : Int) = data.length := wrap32_small _ (by omega) (by omega)
  unfold hexDecode
  simp only [hw, Int.toNat_ofNat, List.take_length]
  exact hexDecodeLoop_in_bounds h data.length hprog _ _ _ _ _ (by omega) (by omega)
    (by simp) (by simp)

theorem stdHelpers_progress (d : List Nat) (h0 : (stdHelpers.utf8_getchar d).1 ≠ 0) :
    (stdHelpers.utf8_getchar d).2.length < d.length := by
  cases d with
  | nil => simp [stdHelpers] at h0
  | cons c rest =>
    simp only [stdHelpers]
    split
    · simp
    · simp only [List.length_drop, List.length_cons]
      omega

/-- C19 on an input of 7 bytes of odd length with non-hex and multi-byte
characters: three writes, at 0, 1 and 2, into a buffer of 3 bytes. -/
theorem C19_hexDecode_witness :
    hexDecode stdHelpers oddInput = some { strBuf := [10, 11, 4], writes := [0, 1, 2] } ∧
    ∃ out, hexDecode stdHelpers oddInput = some out ∧ out.strBuf.length = 7 / 2 ∧
      ∀ w ∈ out.writes, w < 7 / 2 :=
  ⟨by decide, C19_hexDecode_writes_in_bounds stdHelpers oddInput (by decide) stdHelpers_progress⟩

/-! ## Hex encoding and decoding are inverse -/

theorem hexChar_facts :
    ∀ v, v < 16 → 0 < HexChar.getD v 0 ∧ HexChar.getD v 0 < 128 ∧ HexChar.getD v 0 ∈ HexChar := by
  decide

theorem byte_digits (c : Nat) (hc : c < 256) :
    (c % 256) >>> 4 = c / 16 ∧ (c % 256) &&& 0xf = c % 16 := by
  have h1 : c % 256 = c := Nat.mod_eq_of_lt hc
  rw [h1]
  constructor
  · rw [Nat.shiftRight_eq_div_pow]
  · exact Nat.and_pow_two_sub_one_eq_mod c 4

theorem byte_of_digits (c : Nat) (hc : c < 256) :
    ((((c / 16) % 4294967296) <<< 4) + c % 16) % 4294967296 % 256 = c := by
  rw [Nat.shiftLeft_eq]
  omega

theorem set_append_succ {α : Type} (l : List α) (x y z : α) (r : List α) :
    (l ++ x :: y :: r).set (l.length + 1) z = l ++ x :: z :: r := by
  induction l with
  | nil => rfl
  | cons a l ih => simp

theorem hexEncodeLoop_pairs (rest : List Nat) (pos : Nat) (done : List Nat)
    (hdone : done.length = pos * 2) (hb : ∀ x ∈ rest, x < 256) :
    hexEncodeLoop rest pos (done ++ List.replicate (2 * rest.length) 0) = done ++ hexPairs rest := by
  induction rest generalizing pos done with
  | nil => simp [hexEncodeLoop, hexPairs]
  | cons c rest ih =>
    have hc : c < 256 := hb c (List.mem_cons_self _ _)
    have hd := byte_digits c hc
    have hrep : List.replicate (2 * (c :: rest).length) 0
        = (0 : Nat) :: 0 :: List.replicate (2 * rest.length) 0 := by
      have e : 2 * (c :: rest).length = 2 * rest.length + 1 + 1 := by
        simp only [List.length_cons]; omega
      rw [e, List.replicate_succ, List.replicate_succ]
    unfold hexEncodeLoop
    simp only [hd.1, hd.2, hrep]
    rw [← hdone, set_append_length, set_append_succ]
    have h2 := ih (pos + 1) (done ++ [HexChar.getD (c / 16) 0, HexChar.getD (c % 16) 0])
      (by simp only [List.length_append, List.length_cons, List.length_nil]; omega)
      (fun x hx => hb x (List.mem_cons_of_mem _ hx))
    simp only [List.append_assoc, List.cons_append, List.nil_append] at h2
    rw [h2]
    simp [hexPairs]

theorem hexEncode_eq_pairs (b : List Nat) (hlen : b.length < 1073741824)
    (hb : ∀ x ∈ b, x < 256) : hexEncode b = some (hexPairs b) := by
  have hw : wrap32 (b.length : Int) = b.length := wrap32_small _ (by omega) (by omega)
  have hw2 : wrap32 ((b.length : Int) * 2) = ((2 * b.length : Nat) : Int) := by
    rw [wrap32_small _ (by omega) (by omega)]
    push_cast
    ring
  have hnn : ¬ (((2 * b.length : Nat) : Int) < 0) := by omega
  unfold hexEncode
  simp only [hw, hw2, hnn, if_false, Int.toNat_ofNat, List.take_length]
  have h := hexEncodeLoop_pairs b 0 [] rfl hb
  simpa using h

theorem hexPairs_length (b : List Nat) : (hexPairs b).length = 2 * b.length := by
  induction b with
  | nil => rfl
  | cons c rest ih =>
    simp only [hexPairs, List.length_cons, ih]
    omega

theorem hexPairs_mem (b : List Nat) (hb : ∀ x ∈ b, x < 256) :
    ∀ c ∈ hexPairs b, c ∈ HexChar := by
  induction b with
  | nil => intro c hc; simp [hexPairs] at hc
  | cons x rest ih =>
    intro c hc
    have hx : x < 256 := hb x (List.mem_cons_self _ _)
    simp only [hexPairs, List.mem_cons] at hc
    rcases hc with h | h | h
    · rw [h]
      exact (hexChar_facts (x / 16) (by omega)).2.2
    · rw [h]
      exact (hexChar_facts (x % 16) (by omega)).2.2
    · exact ih (fun y hy => hb y (List.mem_cons_of_mem _ hy)) c h

theorem hexDecodeLoop_pairs (h : HexHelpers)
    (hget : ∀ c rest, 0 < c → c < 128 → h.utf8_getchar (c :: rest) = (c, rest))
    (hend : (h.utf8_getchar []).1 = 0)
    (hisx : ∀ c, c ∈ HexChar → h.qisxdigit c = true)
    (hhex : ∀ v, v < 16 → h.qhex (HexChar.getD v 0) = v)
    (rest : List Nat) (hb : ∀ x ∈ rest, x < 256) (fuel : Nat) (pre ws : List Nat)
    (hfuel : 2 * rest.length < fuel) :
    ∃ ws1, hexDecodeLoop h fuel (hexPairs rest) pre.length
        (pre ++ List.replicate rest.length 0) ws
      = some { strBuf := pre ++ rest, writes := ws1 } := by
  induction rest generalizing fuel pre ws with
  | nil =>
    cases fuel with
    | zero => omega
    | succ f =>
      refine ⟨ws, ?_⟩
      simp [hexDecodeLoop, hexPairs, hend]
  | cons c rest ih =>
    have hc : c < 256 := hb c (List.mem_cons_self _ _)
    have fx := hexChar_facts (c / 16) (by omega)
    have fy := hexChar_facts (c % 16) (by omega)
    cases fuel with
    | zero => omega
    | succ f =>
      simp only [List.length_cons] at hfuel
      have g1 := hget (HexChar.getD (c / 16) 0)
        (HexChar.getD (c % 16) 0 :: hexPairs rest) fx.1 fx.2.1
      have g2 := hget (HexChar.getD (c % 16) 0) (hexPairs rest) fy.1 fy.2.1
      have hx0 : HexChar.getD (c / 16) 0 ≠ 0 := by omega
      have hy0 : HexChar.getD (c % 16) 0 ≠ 0 := by omega
      have ix := hisx _ fx.2.2
      have iy := hisx _ fy.2.2
      have vx := hhex (c / 16) (by omega)
      have vy := hhex (c % 16) (by omega)
      have hrep : List.replicate (c :: rest).length 0
          = (0 : Nat) :: List.replicate rest.length 0 := by
        simp only [List.length_cons, List.replicate_succ]
      obtain ⟨ws1, hih⟩ := ih (fun x hx => hb x (List.mem_cons_of_mem _ hx)) f (pre ++ [c])
        (ws ++ [pre.length]) (by omega)
      refine ⟨ws1, ?_⟩
      unfold hexDecodeLoop
      simp only [hexPairs, g1, g2, hx0, hy0, ix, iy, vx, vy, if_true, if_false,
        byte_of_digits c hc, hrep, set_append_length]
      simp only [List.length_append, List.length_cons, List.length_nil, List.append_assoc,
        List.cons_append, List.nil_append, Nat.zero_add] at hih
      exact hih

/-- C18, as stated, fails: for a buffer of 2^30 bytes the 32-bit product
`(int32_t) length * 2` is negative and `hexEncode` returns no string; the
resize of the result throws. -/
theorem C18_hexEncode_fails_at_gibi :
    gibiBuffer.length = 1073741824 ∧ (∀ x ∈ gibiBuffer, x < 256) ∧
    wrap32 (wrap32 gibiBuffer.length * 2) = -2147483648 ∧ hexEncode gibiBuffer = none := by
  have hl : gibiBuffer.length = 1073741824 := by
    simp only [gibiBuffer, List.length_replicate]
  have hw : wrap32 (wrap32 ((1073741824 : Nat) : Int) * 2) = -2147483648 := by decide
  refine ⟨hl, ?_, by rw [hl]; exact hw, ?_⟩
  · intro x hx
    rw [List.eq_of_mem_replicate hx]
    decide
  · unfold hexEncode
    simp only [hl, hw]
    decide

/-- C18, amended: for every sequence `b` of fewer than 2^30 bytes,
`hexEncode(b)` is a string of exactly `2 * |b|` characters, all from 0-9 and
a-f, and `hexDecode` of it returns the buffer `b`.  About the helpers of
`hexDecode` it is used that `utf8_getchar` returns 0 at the end and takes a
non-zero byte below 0x80 as one character, that `qisxdigit` accepts the sixteen
characters of `HexChar`, and that `qhex` maps each of them to its position in
`HexChar`. -/
theorem C18_hex_roundtrip (h : HexHelpers) (b : List Nat)
    (hlen : b.length < 1073741824) (hb : ∀ x ∈ b, x < 256)
    (hget : ∀ c rest, 0 < c → c < 128 → h.utf8_getchar (c :: rest) = (c, rest))
    (hend : (h.utf8_getchar []).1 = 0)
    (hisx : ∀ c, c ∈ HexChar → h.qisxdigit c = true)
    (hhex : ∀ v, v < 16 → h.qhex (HexChar.getD v 0) = v) :
    ∃ enc, hexEncode b = some enc ∧ enc.length = 2 * b.length ∧
      (∀ c ∈ enc, c ∈ HexChar) ∧
      ∃ ws, hexDecode h enc = some { strBuf := b, writes := ws } := by
  refine ⟨hexPairs b, hexEncode_eq_pairs b hlen hb, hexPairs_length b, hexPairs_mem b hb, ?_⟩
  have hl := hexPairs_length b
  have hw : wrap32 ((hexPairs b).length : Int) = (hexPairs b).length :=
    wrap32_small _ (by omega) (by omega)
  unfold hexDecode
  simp only [hw, Int.toNat_ofNat, List.take_length]
  have hdiv : (hexPairs b).length / 2 = b.length := by omega
  rw [hdiv]
  have := hexDecodeLoop_pairs h hget hend hisx hhex b hb ((hexPairs b).length + 1) [] []
    (by omega)
  simpa using this

/-- C18, amended, at the bytes 0, 255, 16, 171 with the usual helpers: the
encoding is "00ff10ab" and decodes to the same bytes. -/
theorem C18_hex_roundtrip_witness :
    hexEncode [0, 255, 16, 171] = some [48, 48, 102, 102, 49, 48, 97, 98] ∧
    ∃ enc, hexEncode [0, 255, 16, 171] = some enc ∧ enc.length = 2 * 4 ∧
      (∀ c ∈ enc, c ∈ HexChar) ∧
      ∃ ws, hexDecode stdHelpers enc = some { strBuf := [0, 255, 16, 171], writes := ws } :=
  ⟨by decide,
   C18_hex_roundtrip stdHelpers [0, 255, 16, 171] (by decide) (by decide)
      (fun c rest _ h128 => by simp [stdHelpers, h128])
      rfl (by decide) (by decide)⟩

end fibjs
